import Mathlib

/-
Verification of the ScanNeo-Router route planner (worker service).

The Python source is shallowly embedded: coordinates are exact rationals
instead of 64-bit floats, and the two external numeric oracles that cannot
be reproduced exactly in a proof assistant - the WGS84 geodesic distance
(pyproj GEOD.inv) and the routing oracle (OpenRouteService) - are passed in
as function parameters.  Every other piece of control flow is translated
directly from the source files under apps/worker/app/services.
-/

namespace ScanNeo

attribute [local semireducible] Rat.mul Rat.inv Rat.add Rat.sub

/-- A WGS84 coordinate pair (lon, lat).  The source stores 64-bit floats;
the embedding uses exact rationals. -/
abbrev Point : Type := ℚ × ℚ

/-! ## RouteCalculator._validate_continuity and result assembly
(route_calculator.py lines 467-497 and 144-167) -/

/-- Embedding of RouteCalculator._validate_continuity: walk consecutive
pairs, record (index, distance) whenever the distance exceeds maxGap, and
report validity as "no violations".  The parameter dist stands for the
external geodesic GEOD.inv. -/
def validateContinuity (dist : Point → Point → ℚ) (maxGap : ℚ)
    (coords : List Point) : Bool × List (ℕ × ℚ) :=
  let violations := (List.range (coords.length - 1)).filterMap (fun i =>
    let d := dist (coords.getD i (0, 0)) (coords.getD (i + 1) (0, 0))
    if maxGap < d then some (i, d) else none)
  (violations.length == 0, violations)

/-- Embedding of the speed table of RouteCalculator._calculate_route_stats
and RouteCalculator.split_into_chunks. -/
def speedByProfile (profile : String) : ℚ :=
  if profile = "driving-car" then 10
  else if profile = "driving-hgv" then 8
  else if profile = "cycling-regular" then 4
  else if profile = "foot-walking" then 7/5
  else 10

/-- Embedding of RouteCalculator._calculate_route_stats: total geodesic
length of the polyline and the derived drive time. -/
def calculateRouteStats (dist : Point → Point → ℚ) (profile : String)
    (coords : List Point) : ℚ × ℚ :=
  if coords.length < 2 then (0, 0)
  else
    let total := ((coords.zip coords.tail).map (fun pq => dist pq.1 pq.2)).sum
    (total, total / speedByProfile profile)

/-- The fields of the result dictionary built at the end of
RouteCalculator.calculate_route that the claims are about. -/
structure RouteResult where
  coordinates : List Point
  length_m : ℚ
  drive_time_s : ℚ
  valid : Bool
  continuity_violations : ℕ
deriving DecidableEq

/-- Embedding of the tail of RouteCalculator.calculate_route (lines
144-167): validate continuity of the assembled coordinates, compute the
statistics, and return the route together with the valid flag and the
violation count - the route is returned whether or not it is valid. -/
def finalizeRoute (dist : Point → Point → ℚ) (maxGap : ℚ) (profile : String)
    (coords : List Point) : RouteResult :=
  let v := validateContinuity dist maxGap coords
  let st := calculateRouteStats dist profile coords
  { coordinates := coords
    length_m := st.1
    drive_time_s := st.2
    valid := v.1
    continuity_violations := v.2.length }

/-! ## RouteCalculator.split_into_chunks (route_calculator.py lines 543-630) -/

/-- One chunk produced by RouteCalculator.split_into_chunks. -/
structure Chunk where
  chunk_id : ℕ
  coordinates : List Point
  length_m : ℚ
  time_s : ℚ
  start_point : Point
  end_point : Point
deriving DecidableEq

/-- Chunk construction: mirrors the dictionary literal of
split_into_chunks (start and end point taken from the geometry). -/
def mkChunk (id : ℕ) (coords : List Point) (len time : ℚ) : Chunk :=
  { chunk_id := id
    coordinates := coords
    length_m := len
    time_s := time
    start_point := coords.headD (0, 0)
    end_point := coords.getLastD (0, 0) }

/-- The main loop of RouteCalculator.split_into_chunks.  The loop runs over
consecutive pairs (p, q); the current chunk receives p each iteration, and
q is appended only when the accumulated time reaches the target, in which
case the chunk is closed and a new one starts at q.  After the loop the
remaining points form a trailing chunk when they number at least two. -/
def splitGo (dist : Point → Point → ℚ) (speed dur : ℚ) :
    List Point → List Point → ℚ → ℚ → List Chunk → List Chunk
  | cur, p :: q :: rest, curLen, curTime, acc =>
      let segLen := dist p q
      let segTime := segLen / speed
      let len := curLen + segLen
      let time := curTime + segTime
      let cur2 := cur ++ [p]
      if dur ≤ time then
        splitGo dist speed dur [q] (q :: rest) 0 0
          (acc ++ [mkChunk acc.length (cur2 ++ [q]) len time])
      else
        splitGo dist speed dur cur2 (q :: rest) len time acc
  | cur, _, curLen, curTime, acc =>
      if 1 < cur.length then acc ++ [mkChunk acc.length cur curLen curTime]
      else acc

/-- Embedding of RouteCalculator.split_into_chunks. -/
def splitIntoChunks (dist : Point → Point → ℚ) (coords : List Point)
    (chunkDur : ℚ) (profile : String) : List Chunk :=
  if coords.length < 2 then []
  else splitGo dist (speedByProfile profile) chunkDur [] coords 0 0 []

/-- Constant distance function used in concrete witnesses. -/
def constDist (c : ℚ) : Point → Point → ℚ := fun _ _ => c

/-! ## GraphBuilder (graph_builder.py) -/

/-- Result of the maxspeed string parsing inside
GraphBuilder._get_speed_mps: the empty string is falsy, a string
containing "mph" parses as miles per hour, any other string parses as km
per hour, and a float parse failure falls through to the highway default. -/
inductive Maxspeed
  | missing
  | kmh (v : ℚ)
  | mph (v : ℚ)
  | invalid
deriving DecidableEq

/-- Feature properties after the defaulted dictionary reads of
GraphBuilder._build_graph_from_segments (highway defaults to residential,
name and osm_id to the empty string, oneway to false). -/
structure Props where
  highway : String
  name : String
  oneway : Bool
  maxspeed : Maxspeed
  osm_id : String
deriving DecidableEq

/-- The defaulted reads applied to an empty properties dictionary. -/
def defaultProps : Props :=
  { highway := "residential", name := "", oneway := false,
    maxspeed := .missing, osm_id := "" }

/-- Default speeds by highway class in GraphBuilder._get_speed_mps. -/
def speedDefaults (highway : String) : ℚ :=
  if highway = "motorway" then 30
  else if highway = "trunk" then 25
  else if highway = "primary" then 20
  else if highway = "secondary" then 15
  else if highway = "tertiary" then 12
  else if highway = "residential" then 8
  else if highway = "service" then 5
  else if highway = "living_street" then 3
  else 10

/-- Embedding of GraphBuilder._get_speed_mps: mph values scale by
0.44704, km per hour values divide by 3.6, anything else uses the
highway default. -/
def getSpeedMps (highway : String) (maxspeed : Maxspeed) : ℚ :=
  match maxspeed with
  | .mph v => v * (44704 / 100000)
  | .kmh v => v / (36 / 10)
  | _ => speedDefaults highway

/-- Edge attributes as set by GraphBuilder._build_graph_from_segments. -/
structure EdgeData where
  length : ℚ
  time : ℚ
  geometry : List Point
  highway : String
  name : String
  oneway : Bool
  osm_id : String
  maxspeed : Maxspeed
deriving DecidableEq

/-- One directed edge of the MultiDiGraph: source node, target node and
attribute record. -/
structure Edge where
  src : Point
  tgt : Point
  data : EdgeData
deriving DecidableEq

/-- The snapping test of get_or_create_node: componentwise absolute
difference strictly below the tolerance. -/
def nearNode (tol : ℚ) (n p : Point) : Bool :=
  decide (|n.1 - p.1| < tol) && decide (|n.2 - p.2| < tol)

/-- Embedding of get_or_create_node: return the first already-created
node within tolerance (dictionary iteration order is insertion order),
otherwise register the point itself as a new node. -/
def getOrCreateNode (tol : ℚ) (nodes : List Point) (p : Point) :
    List Point × Point :=
  match nodes.find? (fun n => nearNode tol n p) with
  | some n => (nodes, n)
  | none => (nodes ++ [p], p)

/-- One iteration of the segment loop of
GraphBuilder._build_graph_from_segments: segments with fewer than two
coordinates are skipped; otherwise both endpoints are interned as nodes,
the edge data is built from the properties of the first valid feature,
and a reverse edge with reversed geometry is added when that feature is
not oneway.  The parameter glen stands for the external geodesic length
(GEOD.inv summed along the polyline). -/
def addSegment (tol : ℚ) (glen : List Point → ℚ) (props : Props)
    (st : List Point × List Edge) (seg : List Point) :
    List Point × List Edge :=
  match seg with
  | p0 :: _ :: _ =>
      let r1 := getOrCreateNode tol st.1 p0
      let r2 := getOrCreateNode tol r1.1 (seg.getLastD p0)
      let lengthM := glen seg
      let ed : EdgeData :=
        { length := lengthM
          time := lengthM / getSpeedMps props.highway props.maxspeed
          geometry := seg
          highway := props.highway
          name := props.name
          oneway := props.oneway
          osm_id := props.osm_id
          maxspeed := props.maxspeed }
      if props.oneway then (r2.1, st.2 ++ [⟨r1.2, r2.2, ed⟩])
      else
        (r2.1, st.2 ++ [⟨r1.2, r2.2, ed⟩,
          ⟨r2.2, r1.2, { ed with geometry := seg.reverse }⟩])
  | _ => st

/-- Embedding of GraphBuilder._build_graph_from_segments: fold the
segment loop over an initially empty node index and edge list.  Every
edge reads its properties from the head of the properties list (the
first valid feature), mirroring the source line
props = props_list[0] if props_list else empty. -/
def buildGraphFromSegments (tol : ℚ) (glen : List Point → ℚ)
    (segments : List (List Point)) (propsList : List Props) : List Edge :=
  (segments.foldl (addSegment tol glen (propsList.headD defaultProps))
    ([], [])).2

/-- A GeoJSON feature as read by GraphBuilder._extract_lines_and_props. -/
structure Feature where
  geomType : String
  coordinates : List Point
  props : Props
deriving DecidableEq

/-- The shapely validity test on a LineString of at least two points:
is_valid holds and the cartesian length is positive exactly when some
consecutive pair of coordinates is distinct. -/
def hasPositiveLength (coords : List Point) : Bool :=
  (coords.zip coords.tail).any (fun pq => decide (pq.1 ≠ pq.2))

/-- Embedding of GraphBuilder._extract_lines_and_props: keep features of
geometry type LineString with at least two coordinates and positive
length. -/
def extractLinesAndProps (features : List Feature) :
    List (List Point) × List Props :=
  let valid := features.filter (fun f =>
    decide (f.geomType = "LineString") && decide (2 ≤ f.coordinates.length)
      && hasPositiveLength f.coordinates)
  (valid.map Feature.coordinates, valid.map Feature.props)

/-- Embedding of GraphBuilder.build_street_graph: empty feature lists and
feature lists with no valid LineString give the empty graph without
raising; otherwise the lines are split at intersections (the external
projected-geometry computation, abstracted as split) and the graph is
built from the resulting segments. -/
def buildStreetGraph (tol : ℚ) (glen : List Point → ℚ)
    (split : List (List Point) → List (List Point))
    (features : List Feature) : List Edge :=
  if features.isEmpty then []
  else
    let ex := extractLinesAndProps features
    if ex.1.isEmpty then []
    else buildGraphFromSegments tol glen (split ex.1) ex.2

/-- Embedding of the entry gate of RouteCalculator.calculate_route (lines
54-64): when the built graph has no edges the source raises
ValueError with the message below, otherwise the rest of the pipeline
(abstracted as rest) runs on the graph. -/
def calculateRouteGate (G : List Edge)
    (rest : List Edge → Except String RouteResult) :
    Except String RouteResult :=
  if G.length = 0 then .error "No valid street network found" else rest G

/-- The edge created for the second segment of the C2 counterexample: its
source node snapped to the node (0,0) created by the first segment, while
its geometry still starts at the raw coordinate (1/10000000, 0). -/
def snappedEdge : Edge :=
  { src := (0, 0), tgt := (0, 1)
    data := { length := 1
              time := 1/8
              geometry := [(1/10000000, 0), (0, 1)]
              highway := "residential"
              name := ""
              oneway := false
              osm_id := ""
              maxspeed := .missing } }

/-! ## RouteConnector (route_connector.py) -/

/-- Squared cartesian distance used by the align helper of
route_connector.py. -/
def sqd (A B : Point) : ℚ :=
  (A.1 - B.1) ^ 2 + (A.2 - B.2) ^ 2

/-- Embedding of the align helper: orient the geometry from u to v
(reversing when its head is nearer to v than to u) and snap both
endpoints exactly onto u and v. -/
def alignGeom (u v : Point) (coords : List Point) : List Point :=
  if coords.length < 2 then [u, v]
  else
    let c := if sqd (coords.headD u) v < sqd (coords.headD u) u
      then coords.reverse else coords
    u :: (c.tail.dropLast ++ [v])

/-- Python min over parallel edge data keyed by length: the first entry
among those of minimal length. -/
def minByLength : List EdgeData → Option EdgeData
  | [] => none
  | d :: ds => some (ds.foldl (fun best x =>
      if x.length < best.length then x else best) d)

/-- Embedding of get_edge_geom inside RouteConnector.bridge_route_gaps
(keyless variant): take the shortest parallel edge between u and v, fall
back to the straight segment when there is none or its geometry is
empty, and align the geometry from u to v with exactly snapped
endpoints. -/
def getEdgeGeom (G : List Edge) (u v : Point) : List Point :=
  let datas := (G.filter (fun e =>
    decide (e.src = u) && decide (e.tgt = v))).map Edge.data
  match minByLength datas with
  | none => [u, v]
  | some d => if d.geometry.isEmpty then [u, v] else alignGeom u v d.geometry

/-- One iteration of the circuit walk of
RouteConnector.bridge_route_gaps (lines 500-563): out is the polyline
emitted so far and seg the next edge geometry (always at least two
points at the call sites).  The gap from the last emitted point to the
head of seg selects dedup (at most 1 mm), direct join (at most 20 m), or
an oracle bridge whose endpoints are snapped exactly; an oracle result
with fewer than two points (including a raised exception, modelled as
the empty list) degrades to the direct join. -/
def appendSegment (dist : Point → Point → ℚ)
    (oracle : Point → Point → List Point)
    (out seg : List Point) : List Point :=
  if out.isEmpty then out ++ seg
  else
    match out.getLast?, seg.head? with
    | some a, some b =>
      let gap := dist a b
      if gap ≤ 1/1000 then out ++ seg.tail
      else if gap ≤ 20 then (out ++ [b]) ++ seg.tail
      else
        let bridge := oracle a b
        if 1 < bridge.length then
          (out ++ (a :: (bridge.tail.dropLast ++ [b])).tail) ++ seg.tail
        else (out ++ [b]) ++ seg.tail
    | _, _ => out ++ seg

/-- Embedding of the main phase of RouteConnector.bridge_route_gaps:
walk the circuit, fetch and align each edge geometry, and append it with
gap handling. -/
def bridgeRouteGapsMain (dist : Point → Point → ℚ)
    (oracle : Point → Point → List Point) (G : List Edge)
    (circuit : List (Point × Point)) : List Point :=
  circuit.foldl (fun out e =>
    let seg0 := getEdgeGeom G e.1 e.2
    let seg := if seg0.length < 2 then [e.1, e.2] else seg0
    appendSegment dist oracle out seg) []

/-- Embedding of RouteConnector._repair_continuity (lines 579-634): a
single pass over the polyline with a hard cap of 200 fixes.  A pair
within 20 m advances the cursor; otherwise an oracle bridge of at least
two points replaces the pair (endpoints snapped exactly) and the cursor
advances past the inserted points; an unusable oracle result snaps the
second point onto the first, guaranteeing progress.  Lean accepts the
definition because the measure length - i strictly decreases, which is
the termination argument for the source loop. -/
def repairGo (dist : Point → Point → ℚ)
    (oracle : Point → Point → List Point) :
    List Point → ℕ → ℕ → List Point × ℕ
  | coords, i, fixed =>
    if h : i + 1 < coords.length ∧ fixed < 200 then
      if dist (coords.getD i (0, 0)) (coords.getD (i + 1) (0, 0)) ≤ 20 then
        repairGo dist oracle coords (i + 1) fixed
      else if hb : 1 < (oracle (coords.getD i (0, 0))
          (coords.getD (i + 1) (0, 0))).length then
        repairGo dist oracle
          (coords.take i
            ++ (coords.getD i (0, 0)
              :: ((oracle (coords.getD i (0, 0))
                    (coords.getD (i + 1) (0, 0))).tail.dropLast
                  ++ [coords.getD (i + 1) (0, 0)]))
            ++ coords.drop (i + 2))
          (i + max 1 ((oracle (coords.getD i (0, 0))
              (coords.getD (i + 1) (0, 0))).length - 1))
          (fixed + 1)
      else
        repairGo dist oracle (coords.set (i + 1) (coords.getD i (0, 0)))
          (i + 1) (fixed + 1)
    else (coords, fixed)
termination_by coords i _ => coords.length - i
decreasing_by
  · omega
  · simp only [List.length_append, List.length_take, List.length_cons,
      List.length_drop, List.length_dropLast, List.length_tail,
      List.length_nil]
    rw [Nat.min_eq_left (by omega : i ≤ coords.length)]
    omega
  · simp only [List.length_set]
    omega

/-- Embedding of RouteConnector._repair_continuity as called on a whole
polyline. -/
def repairContinuity (dist : Point → Point → ℚ)
    (oracle : Point → Point → List Point) (coords : List Point) :
    List Point × ℕ :=
  repairGo dist oracle coords 0 0

/-- Embedding of RouteConnector.bridge_route_gaps: main phase followed by
the final repair pass; the resulting polyline is returned whether or not
the final validation still finds violations. -/
def bridgeRouteGaps (dist : Point → Point → ℚ)
    (oracle : Point → Point → List Point) (G : List Edge)
    (circuit : List (Point × Point)) : List Point :=
  (repairContinuity dist oracle (bridgeRouteGapsMain dist oracle G circuit)).1

/-- Predicate: the edge carries exactly the attribute values derived from
the given feature properties, including the speed used for its time. -/
def carriesProps (pr : Props) (e : Edge) : Prop :=
  e.data.highway = pr.highway ∧ e.data.name = pr.name
    ∧ e.data.oneway = pr.oneway ∧ e.data.osm_id = pr.osm_id
    ∧ e.data.maxspeed = pr.maxspeed
    ∧ e.data.time = e.data.length / getSpeedMps pr.highway pr.maxspeed

/-- Predicate: e2 is the reverse companion of e, running target to source
over the reversed polyline. -/
def reverseOf (e2 e : Edge) : Prop :=
  e2.src = e.tgt ∧ e2.tgt = e.src
    ∧ e2.data.geometry = e.data.geometry.reverse

/-- An oracle returning a three-point polyline, used in witnesses. -/
def bridgeOracle : Point → Point → List Point :=
  fun a b => [a, (5, 5), b]

/-! ## ORSClient (ors_client.py) -/

/-- Outcome of one HTTP attempt inside
ORSClient._make_request_with_retry.  A 2xx response carries the decoded
route polyline and its summary distance; a non-429 4xx raises out of the
retry loop via raise_for_status; 429, 5xx, timeout and network errors
sleep and take the next loop iteration. -/
inductive Attempt
  | ok (coords : List Point) (distance : ℚ)
  | clientError
  | rateLimited
  | serverError
  | timeout
  | netError
deriving DecidableEq

/-- Attempts that consume a retry and continue the loop. -/
def Attempt.transient : Attempt → Bool
  | .rateLimited => true
  | .serverError => true
  | .timeout => true
  | .netError => true
  | _ => false

/-- Embedding of the retry loop of ORSClient._make_request_with_retry:
run attempts i, i+1, ... below maxRetries; a success returns, a non-429
client error raises immediately, transient outcomes continue, and an
exhausted loop raises Failed after N attempts.  The environment of
successive HTTP outcomes is the function outcomes. -/
def retryGo (outcomes : ℕ → Attempt) (maxRetries : ℕ) :
    ℕ → Except String (List Point × ℚ)
  | i =>
    if _h : i < maxRetries then
      match outcomes i with
      | .ok coords d => .ok (coords, d)
      | .clientError => .error "HTTP client error"
      | _ => retryGo outcomes maxRetries (i + 1)
    else .error ("Failed after " ++ toString maxRetries ++ " attempts")
termination_by i => maxRetries - i
decreasing_by all_goals omega

/-- The result of ORSClient.get_route as observed by callers: the
polyline, the distance, and the last_success flag (none when the
disabled fast path leaves the flag untouched). -/
structure GetRouteResult where
  coordinates : List Point
  distance : ℚ
  lastSuccess : Option Bool
deriving DecidableEq

/-- Embedding of ORSClient.get_route (cache absent, no waypoints): a
disabled client returns the straight line with the haversine distance at
once; otherwise the request runs with retries, a success returns the
decoded polyline and the ORS distance with last_success true, and any
raised exception is caught and becomes the straight-line fallback with
the haversine distance and last_success false.  The parameter hav stands
for the trigonometric _haversine of ors_client.py. -/
def getRoute (enabled : Bool) (hav : Point → Point → ℚ) (maxRetries : ℕ)
    (outcomes : ℕ → Attempt) (start stop : Point) : GetRouteResult :=
  if !enabled then
    { coordinates := [start, stop], distance := hav start stop,
      lastSuccess := none }
  else
    match retryGo outcomes maxRetries 0 with
    | .ok (coords, d) =>
        { coordinates := coords, distance := d, lastSuccess := some true }
    | .error _ =>
        { coordinates := [start, stop], distance := hav start stop,
          lastSuccess := some false }

/-! ## CPPSolver Eulerization (route_calculator.py lines 177-328)

The graph of _make_eulerian_directed is a directed multigraph; the
embedding stores its edge multiset as a list of (source, target) pairs
over interned node ids, the representation the design notes prescribe
for a port.  The two networkx calls - single_source_dijkstra and
min_cost_flow - are external library algorithms; they enter the
embedding as the recorded path table and the flow assignment, and the
theorems hypothesise exactly what their contracts guarantee on a
strongly connected graph: every positive flow follows a recorded path
through existing edges, every supply node sends out exactly its deficit
and every demand node receives exactly its surplus (on a strongly
connected graph the flow problem is feasible, with the greedy pairing as
fallback otherwise). -/

/-- A directed edge between interned node ids. -/
abbrev DiEdge := ℕ × ℕ

/-- Out-degree of v in the edge multiset. -/
def outDeg (E : List DiEdge) (v : ℕ) : ℕ :=
  E.countP (fun e => decide (e.1 = v))

/-- In-degree of v in the edge multiset. -/
def inDeg (E : List DiEdge) (v : ℕ) : ℕ :=
  E.countP (fun e => decide (e.2 = v))

/-- balance(v) = out_degree(v) - in_degree(v), as computed at the top of
_make_eulerian_directed. -/
def balanceZ (E : List DiEdge) (v : ℕ) : ℤ :=
  (outDeg E v : ℤ) - (inDeg E v : ℤ)

/-- Supply nodes: balance negative (they need more outgoing edges). -/
def supplyNodes (V : List ℕ) (E : List DiEdge) : List ℕ :=
  V.filter (fun v => decide (balanceZ E v < 0))

/-- Demand nodes: balance positive (they need more incoming edges). -/
def demandNodes (V : List ℕ) (E : List DiEdge) : List ℕ :=
  V.filter (fun v => decide (0 < balanceZ E v))

/-- The consecutive edge steps of a recorded path. -/
def pathSteps (p : List ℕ) : List DiEdge :=
  p.zip p.tail

/-- The duplicated edges for one supply-demand pair: flow copies of the
recorded shortest path, where each step is duplicated only when the edge
exists in the working graph (the has_edge guard; the support of the
working graph never grows, because the loop only ever duplicates pairs
that already exist, so the guard is equivalent to membership in the
original edge set). -/
def dupEdgesFor (E : List DiEdge) (flow : ℕ → ℕ → ℕ)
    (paths : ℕ → ℕ → Option (List ℕ)) (s d : ℕ) : List DiEdge :=
  match paths s d with
  | some p =>
      if 0 < flow s d ∧ p ≠ [] then
        (List.replicate (flow s d)
          ((pathSteps p).filter (fun e => decide (e ∈ E)))).flatten
      else []
  | none => []

/-- Embedding of the edge-duplication phase of _make_eulerian_directed:
the original edges plus, for every supply node and demand node, the
duplications driven by the flow assignment. -/
def makeEulerianDirected (V : List ℕ) (E : List DiEdge)
    (flow : ℕ → ℕ → ℕ) (paths : ℕ → ℕ → Option (List ℕ)) : List DiEdge :=
  E ++ (supplyNodes V E).flatMap (fun s =>
    (demandNodes V E).flatMap (fun d => dupEdgesFor E flow paths s d))

/-- Node list of the C4 witness graph: a directed triangle with an extra
parallel edge 0 to 1, so node 0 has surplus out-degree and node 1
surplus in-degree. -/
def wV : List ℕ := [0, 1, 2]

/-- Edge list of the C4 witness graph. -/
def wE : List DiEdge := [(0, 1), (1, 2), (2, 0), (0, 1)]

/-- The saturating flow for the witness graph: one unit from supply node
1 to demand node 0. -/
def wFlow : ℕ → ℕ → ℕ := fun s d => if s = 1 ∧ d = 0 then 1 else 0

/-- The recorded shortest path for the witness flow: 1 to 0 through 2. -/
def wPaths : ℕ → ℕ → Option (List ℕ) :=
  fun s d => if s = 1 ∧ d = 0 then some [1, 2, 0] else none

/-- Sum of the amounts carried by the entries of an association list
with the given key. -/
def amountOf (l : List (ℕ × ℕ)) (d : ℕ) : ℕ :=
  ((l.filter (fun e => decide (e.1 = d))).map Prod.snd).sum

/-- Total amount of an association list. -/
def totalAmount (l : List (ℕ × ℕ)) : ℕ :=
  (l.map Prod.snd).sum

/-- Inner loop of RouteCalculator._simple_flow_fallback for one supply
node: scan the remaining demands in order, assigning the minimum of the
remaining supply and the remaining demand whenever both are positive.
Returns the assignments made and the updated remaining demands. -/
def greedyInner : ℕ → List (ℕ × ℕ) → List (ℕ × ℕ) × List (ℕ × ℕ)
  | _, [] => ([], [])
  | rs, (d, rd) :: rest =>
      if 0 < rs ∧ 0 < rd then
        let f := min rs rd
        let pr := greedyInner (rs - f) rest
        ((d, f) :: pr.1, (d, rd - f) :: pr.2)
      else
        let pr := greedyInner rs rest
        (pr.1, (d, rd) :: pr.2)

/-- Outer loop of RouteCalculator._simple_flow_fallback: supplies in
order, threading the remaining demands; the output triples (s, d, f)
are the entries written into flow_dict. -/
def greedyOuter : List (ℕ × ℕ) → List (ℕ × ℕ) → List (ℕ × ℕ × ℕ)
  | [], _ => []
  | (s, rs) :: srest, dem =>
      ((greedyInner rs dem).1.map (fun df => (s, df.1, df.2)))
        ++ greedyOuter srest (greedyInner rs dem).2

/-- The remaining demands after the greedy outer loop. -/
def greedyOuterDem : List (ℕ × ℕ) → List (ℕ × ℕ) → List (ℕ × ℕ)
  | [], dem => dem
  | (_, rs) :: srest, dem => greedyOuterDem srest (greedyInner rs dem).2

/-- Embedding of RouteCalculator._simple_flow_fallback: remaining
supplies are the negated balances of the supply nodes, remaining demands
the balances of the demand nodes, assigned greedily in order. -/
def simpleFlowFallback (V : List ℕ) (E : List DiEdge) :
    List (ℕ × ℕ × ℕ) :=
  greedyOuter
    ((supplyNodes V E).map (fun s => (s, (-balanceZ E s).toNat)))
    ((demandNodes V E).map (fun d => (d, (balanceZ E d).toNat)))

/-- The flow function read off an assignment list. -/
def flowOf (F : List (ℕ × ℕ × ℕ)) (s d : ℕ) : ℕ :=
  ((F.filter (fun t => decide (t.1 = s ∧ t.2.1 = d))).map
    (fun t => t.2.2)).sum

/-- Total flow leaving a supply node in an assignment list. -/
def flowFrom (F : List (ℕ × ℕ × ℕ)) (s : ℕ) : ℕ :=
  ((F.filter (fun t => decide (t.1 = s))).map (fun t => t.2.2)).sum

/-- Total flow entering a demand node in an assignment list. -/
def flowTo (F : List (ℕ × ℕ × ℕ)) (d : ℕ) : ℕ :=
  ((F.filter (fun t => decide (t.2.1 = d))).map (fun t => t.2.2)).sum

/-! ## Theorems about continuity validation (claim C1) -/

/-- C1: the valid flag of the returned route is true exactly when every
pair of consecutive points of the final polyline is at geodesic distance
at most maxGap; the route coordinates are returned in the result whether
or not the flag is set, and the number of violations found by the
validator is reported alongside. -/
theorem route_valid_iff_all_gaps_le (dist : Point → Point → ℚ) (maxGap : ℚ)
    (profile : String) (coords : List Point) :
    ((finalizeRoute dist maxGap profile coords).valid = true ↔
      ∀ i, i + 1 < coords.length →
        dist (coords.getD i (0, 0)) (coords.getD (i + 1) (0, 0)) ≤ maxGap)
    ∧ (finalizeRoute dist maxGap profile coords).coordinates = coords
    ∧ (finalizeRoute dist maxGap profile coords).continuity_violations
        = (validateContinuity dist maxGap coords).2.length := by
  refine ⟨?_, rfl, rfl⟩
  simp only [finalizeRoute, validateContinuity, beq_iff_eq,
    List.length_eq_zero, List.filterMap_eq_nil_iff, List.mem_range]
  constructor
  · intro h i hi
    have hi2 : i < coords.length - 1 := by omega
    have := h i hi2
    by_contra hlt
    rw [if_pos (lt_of_not_le hlt)] at this
    exact Option.some_ne_none _ this
  · intro h i hi
    have hi2 : i + 1 < coords.length := by omega
    rw [if_neg (not_lt.mpr (h i hi2))]

/-- Witness for C1 at a concrete input: three collinear points all 5 m
apart are declared valid against the 30 m threshold. -/
theorem route_valid_iff_all_gaps_le_witness :
    (finalizeRoute (constDist 5) 30 "driving-car" [(0, 0), (1, 0), (2, 0)]).valid
      = true :=
  (route_valid_iff_all_gaps_le (constDist 5) 30 "driving-car"
      [(0, 0), (1, 0), (2, 0)]).1.mpr (by intro i hi; norm_num [constDist])

/-! ## Theorems about the chunker (claims C5 and C6) -/

/-- C5 counterexample: the claim that every chunk satisfies
time_s ≤ chunkDur × 1.1 fails at a concrete input.  A single segment
whose traversal time exceeds the whole budget (here 100000 s against a
60 s budget) is closed into one chunk carrying the full time. -/
theorem chunk_time_budget_violated :
    ¬ (∀ ch ∈ splitIntoChunks (constDist 1000000) [(0, 0), (1, 1)] 60
          "driving-car", ch.time_s ≤ 60 * (11/10)) := by
  intro h
  have hc : splitIntoChunks (constDist 1000000) [(0, 0), (1, 1)] 60
      "driving-car" = [mkChunk 0 [(0, 0), (1, 1)] 1000000 100000] := by
    norm_num [splitIntoChunks, splitGo, speedByProfile, constDist]
  have := h (mkChunk 0 [(0, 0), (1, 1)] 1000000 100000) (by rw [hc]; simp)
  simp only [mkChunk] at this
  norm_num at this

/-- C5 amended: every chunk finishes in strictly less than the target
duration plus the traversal time of a single segment - the accumulated
time is below the target when the final segment of the chunk is added.
M bounds the per-segment traversal time along the route. -/
theorem chunk_time_lt_budget_plus_segment (dist : Point → Point → ℚ)
    (coords : List Point) (dur M : ℚ) (profile : String)
    (hdur : 0 < dur) (hM : 0 ≤ M)
    (hseg : coords.Chain' (fun p q => dist p q / speedByProfile profile ≤ M)) :
    ∀ ch ∈ splitIntoChunks dist coords dur profile, ch.time_s < dur + M := by
  have main : ∀ (l cur : List Point) (curLen curTime : ℚ) (acc : List Chunk),
      l.Chain' (fun p q => dist p q / speedByProfile profile ≤ M) →
      curTime < dur →
      (∀ ch ∈ acc, ch.time_s < dur + M) →
      ∀ ch ∈ splitGo dist (speedByProfile profile) dur cur l curLen curTime acc,
        ch.time_s < dur + M := by
    intro l
    induction l with
    | nil =>
      intro cur curLen curTime acc _ hcur hacc ch hch
      simp only [splitGo] at hch
      split at hch
      · rcases List.mem_append.mp hch with h | h
        · exact hacc ch h
        · simp only [List.mem_singleton] at h
          subst h
          calc curTime < dur := hcur
            _ ≤ dur + M := le_add_of_nonneg_right hM
      · exact hacc ch hch
    | cons p t ih =>
      intro cur curLen curTime acc hchain hcur hacc ch hch
      cases t with
      | nil =>
        simp only [splitGo] at hch
        split at hch
        · rcases List.mem_append.mp hch with h | h
          · exact hacc ch h
          · simp only [List.mem_singleton] at h
            subst h
            calc curTime < dur := hcur
              _ ≤ dur + M := le_add_of_nonneg_right hM
        · exact hacc ch hch
      | cons q rest =>
        rw [List.chain'_cons] at hchain
        obtain ⟨hpq, hchain2⟩ := hchain
        simp only [splitGo] at hch
        split at hch
        · refine ih _ _ _ _ hchain2 hdur ?_ ch hch
          intro ch2 hch2
          rcases List.mem_append.mp hch2 with h | h
          · exact hacc ch2 h
          · simp only [List.mem_singleton] at h
            subst h
            simp only [mkChunk]
            exact add_lt_add_of_lt_of_le hcur hpq
        · rename_i hlt
          exact ih _ _ _ _ hchain2 (lt_of_not_le hlt) hacc ch hch
  intro ch hch
  simp only [splitIntoChunks] at hch
  split at hch
  · simp at hch
  · exact main coords [] 0 0 [] hseg hdur (by simp) ch hch

/-- Witness for the amended C5 at a concrete input: two 600 m segments at
10 m per s against a 100 s budget give one chunk of 120 s, below
100 + 60. -/
theorem chunk_time_lt_budget_plus_segment_witness :
    (mkChunk 0 [(0, 0), (1, 0), (2, 0)] 1200 120).time_s < 100 + 60 :=
  chunk_time_lt_budget_plus_segment (constDist 600) [(0, 0), (1, 0), (2, 0)]
    100 60 "driving-car" (by norm_num) (by norm_num)
    (by
      simp only [List.chain'_cons, List.chain'_singleton, and_true]
      norm_num [constDist, speedByProfile])
    _
    (by norm_num [splitIntoChunks, splitGo, mkChunk, speedByProfile, constDist])

/-- C6: at a route of three points whose traversal stays below the chunk
budget, the trailing chunk keeps only the first two points - the final
route point is appended to the current chunk only when a chunk closes -
while its recorded length still covers both segments.  Concatenating the
chunk geometries therefore cannot return the route polyline. -/
theorem chunker_trailing_chunk_drops_last_point :
    ((splitIntoChunks (constDist 1) [(0, 0), (1, 0), (2, 0)] 1000
        "driving-car").map Chunk.coordinates) = [[(0, 0), (1, 0)]]
    ∧ ((splitIntoChunks (constDist 1) [(0, 0), (1, 0), (2, 0)] 1000
        "driving-car").map Chunk.length_m) = [2]
    ∧ [(0, 0), (1, 0)] ≠ [((0 : ℚ), (0 : ℚ)), (1, 0), (2, 0)] := by
  refine ⟨?_, ?_, by simp⟩ <;>
    norm_num [splitIntoChunks, splitGo, mkChunk, speedByProfile, constDist]

/-! ## Theorems about graph construction (claims C2 and C3) -/

/-- C2 counterexample: the claim that every edge geometry starts and ends
bit-exactly at its source and target node fails when an endpoint is
identified with a previously created node within snap_tolerance.  The
second segment starts at (1/10000000, 0), within the 1/1000000 tolerance
of the existing node (0, 0); the edge gets source node (0, 0) but its
geometry still begins at the raw coordinate. -/
theorem edge_geometry_not_bitexact :
    ¬ (∀ e ∈ buildGraphFromSegments (1/1000000) (fun _ => 1)
          [[(0, 0), (1, 0)], [(1/10000000, 0), (0, 1)]] [defaultProps],
        e.data.geometry.head? = some e.src
          ∧ e.data.geometry.getLast? = some e.tgt) := by
  decide

/-- The node returned by get_or_create_node is always within the snap
tolerance of the queried point. -/
theorem getOrCreateNode_near (tol : ℚ) (nodes : List Point) (p : Point)
    (htol : 0 < tol) :
    nearNode tol (getOrCreateNode tol nodes p).2 p = true := by
  unfold getOrCreateNode
  cases hf : nodes.find? (fun n => nearNode tol n p) with
  | none => simp [nearNode, htol]
  | some n => simpa using List.find?_some hf

/-- C2 amended: after node snapping, every edge geometry starts within
snap_tolerance of its source node and ends within snap_tolerance of its
target node (componentwise, strictly below the tolerance, as in the
snapping test itself); bit-exact equality holds only when the endpoint
was not identified with a distinct pre-existing node. -/
theorem edge_geometry_near_nodes (tol : ℚ) (glen : List Point → ℚ)
    (segments : List (List Point)) (propsList : List Props)
    (htol : 0 < tol) :
    ∀ e ∈ buildGraphFromSegments tol glen segments propsList,
      (∃ p, e.data.geometry.head? = some p ∧ nearNode tol e.src p = true)
      ∧ (∃ q, e.data.geometry.getLast? = some q
            ∧ nearNode tol e.tgt q = true) := by
  set pr := propsList.headD defaultProps with hpr
  suffices h : ∀ (segs : List (List Point)) (st : List Point × List Edge),
      (∀ e ∈ st.2,
        (∃ p, e.data.geometry.head? = some p ∧ nearNode tol e.src p = true)
          ∧ (∃ q, e.data.geometry.getLast? = some q
              ∧ nearNode tol e.tgt q = true)) →
      ∀ e ∈ (segs.foldl (addSegment tol glen pr) st).2,
        (∃ p, e.data.geometry.head? = some p ∧ nearNode tol e.src p = true)
          ∧ (∃ q, e.data.geometry.getLast? = some q
              ∧ nearNode tol e.tgt q = true) by
    intro e he
    exact h segments ([], []) (by simp) e he
  intro segs
  induction segs with
  | nil => intro st hst e he; exact hst e he
  | cons seg t ih =>
    intro st hst e he
    rw [List.foldl_cons] at he
    refine ih (addSegment tol glen pr st seg) ?_ e he
    intro e2 he2
    rcases seg with _ | ⟨p0, _ | ⟨p1, ps⟩⟩
    · exact hst e2 (by simpa [addSegment] using he2)
    · exact hst e2 (by simpa [addSegment] using he2)
    ·
      have hlast : (p0 :: p1 :: ps).getLast? =
          some ((p0 :: p1 :: ps).getLastD p0) := by
        rw [List.getLastD_eq_getLast?]
        cases h : (p0 :: p1 :: ps).getLast? with
        | none => simp at h
        | some y => rfl
      simp only [addSegment] at he2
      split at he2 <;>
        rcases List.mem_append.mp he2 with h2 | h2
      · exact hst e2 h2
      · simp only [List.mem_singleton] at h2
        subst h2
        refine ⟨⟨p0, by simp, getOrCreateNode_near tol st.1 p0 htol⟩,
          ⟨(p0 :: p1 :: ps).getLastD p0, hlast,
            getOrCreateNode_near tol _ _ htol⟩⟩
      · exact hst e2 h2
      · simp only [List.mem_cons, List.mem_singleton, List.not_mem_nil,
          or_false] at h2
        rcases h2 with h2 | h2 <;> subst h2
        · refine ⟨⟨p0, by simp, getOrCreateNode_near tol st.1 p0 htol⟩,
            ⟨(p0 :: p1 :: ps).getLastD p0, hlast,
              getOrCreateNode_near tol _ _ htol⟩⟩
        · refine ⟨⟨(p0 :: p1 :: ps).getLastD p0, ?_,
              getOrCreateNode_near tol _ _ htol⟩,
            ⟨p0, ?_, getOrCreateNode_near tol st.1 p0 htol⟩⟩
          · rw [List.head?_reverse, hlast]
          · rw [List.getLast?_reverse]
            simp

/-- Witness for the amended C2: the snapped edge of the counterexample
input indeed starts within tolerance of its source node. -/
theorem edge_geometry_near_nodes_witness :
    (∃ p, snappedEdge.data.geometry.head? = some p
        ∧ nearNode (1/1000000) snappedEdge.src p = true) :=
  (edge_geometry_near_nodes (1/1000000) (fun _ => 1)
    [[(0, 0), (1, 0)], [(1/10000000, 0), (0, 1)]] [defaultProps]
    (by norm_num) snappedEdge (by decide)).1

/-- Every edge appended by the segment fold carries the properties it was
built from. -/
theorem buildGraph_carries_props (tol : ℚ) (glen : List Point → ℚ)
    (pr : Props) (segs : List (List Point)) (st : List Point × List Edge)
    (hst : ∀ e ∈ st.2, carriesProps pr e) :
    ∀ e ∈ (segs.foldl (addSegment tol glen pr) st).2, carriesProps pr e := by
  induction segs generalizing st with
  | nil => exact hst
  | cons seg t ih =>
    intro e he
    rw [List.foldl_cons] at he
    refine ih (addSegment tol glen pr st seg) ?_ e he
    intro e2 he2
    rcases seg with _ | ⟨p0, _ | ⟨p1, ps⟩⟩
    · exact hst e2 (by simpa [addSegment] using he2)
    · exact hst e2 (by simpa [addSegment] using he2)
    · simp only [addSegment] at he2
      split at he2 <;> rcases List.mem_append.mp he2 with h2 | h2
      · exact hst e2 h2
      · simp only [List.mem_singleton] at h2
        subst h2
        exact ⟨rfl, rfl, rfl, rfl, rfl, rfl⟩
      · exact hst e2 h2
      · simp only [List.mem_cons, List.mem_singleton, List.not_mem_nil,
          or_false] at h2
        rcases h2 with h2 | h2 <;> subst h2 <;>
          exact ⟨rfl, rfl, rfl, rfl, rfl, rfl⟩

/-- Every edge appended by the segment fold has a reverse companion in
the same edge list when the feature is not oneway. -/
theorem buildGraph_reverse_companion (tol : ℚ) (glen : List Point → ℚ)
    (pr : Props) (hpr : pr.oneway = false) (segs : List (List Point))
    (st : List Point × List Edge)
    (hst : ∀ e ∈ st.2, ∃ e2 ∈ st.2, reverseOf e2 e) :
    ∀ e ∈ (segs.foldl (addSegment tol glen pr) st).2,
      ∃ e2 ∈ (segs.foldl (addSegment tol glen pr) st).2, reverseOf e2 e := by
  induction segs generalizing st with
  | nil => exact hst
  | cons seg t ih =>
    intro e he
    rw [List.foldl_cons] at he ⊢
    refine ih (addSegment tol glen pr st seg) ?_ e he
    intro e2 he2
    rcases seg with _ | ⟨p0, _ | ⟨p1, ps⟩⟩
    · simp only [addSegment] at he2 ⊢
      exact hst e2 he2
    · simp only [addSegment] at he2 ⊢
      exact hst e2 he2
    · simp only [addSegment, hpr, Bool.false_eq_true, if_neg,
        ite_false] at he2 ⊢
      rcases List.mem_append.mp he2 with h2 | h2
      · obtain ⟨e3, he3, hrev⟩ := hst e2 h2
        exact ⟨e3, List.mem_append_left _ he3, hrev⟩
      · simp only [List.mem_cons, List.mem_singleton, List.not_mem_nil,
          or_false] at h2
        rcases h2 with h2 | h2 <;> subst h2
        · exact ⟨_, List.mem_append_right _
            (List.mem_cons_of_mem _ (List.mem_cons_self _ _)),
            rfl, rfl, rfl⟩
        · exact ⟨_, List.mem_append_right _ (List.mem_cons_self _ _),
            rfl, rfl, (List.reverse_reverse _).symm⟩

/-- The number of edges produced by the segment fold: one per valid
segment when the first feature is oneway, two otherwise. -/
theorem buildGraph_length (tol : ℚ) (glen : List Point → ℚ) (pr : Props)
    (segs : List (List Point)) (st : List Point × List Edge) :
    ((segs.foldl (addSegment tol glen pr) st).2).length
      = st.2.length + (if pr.oneway then 1 else 2)
          * segs.countP (fun s => decide (2 ≤ s.length)) := by
  induction segs generalizing st with
  | nil => simp
  | cons seg t ih =>
    rw [List.foldl_cons, ih, List.countP_cons]
    rcases seg with _ | ⟨p0, _ | ⟨p1, ps⟩⟩
    · simp [addSegment]
    · simp [addSegment]
    · simp only [addSegment]
      split <;> simp_all <;> ring

/-- C3: every edge built by the graph builder carries the attributes of
the first valid feature of the collection (not those of the feature its
segment came from): highway, name, oneway, osm_id and maxspeed all come
from the head of the properties list, the edge time is derived from that
feature speed, a reverse companion edge over the reversed polyline exists
for every edge exactly when that first feature is not oneway, and the
edge count is one per valid segment when it is oneway and two otherwise. -/
theorem edges_carry_first_feature_props (tol : ℚ) (glen : List Point → ℚ)
    (segments : List (List Point)) (pr : Props) (rest : List Props) :
    (∀ e ∈ buildGraphFromSegments tol glen segments (pr :: rest),
        carriesProps pr e)
    ∧ (pr.oneway = false →
        ∀ e ∈ buildGraphFromSegments tol glen segments (pr :: rest),
          ∃ e2 ∈ buildGraphFromSegments tol glen segments (pr :: rest),
            reverseOf e2 e)
    ∧ (buildGraphFromSegments tol glen segments (pr :: rest)).length
        = (if pr.oneway then 1 else 2)
            * segments.countP (fun s => decide (2 ≤ s.length)) := by
  refine ⟨?_, ?_, ?_⟩
  · exact buildGraph_carries_props tol glen pr segments ([], []) (by simp)
  · intro hpr
    exact buildGraph_reverse_companion tol glen pr hpr segments ([], [])
      (by simp)
  · simpa using buildGraph_length tol glen pr segments ([], [])

/-- Witness for C3 at a concrete input: a single two-point segment under
a not-oneway first feature yields exactly two edges. -/
theorem edges_carry_first_feature_props_witness :
    (buildGraphFromSegments 1 (fun _ => 1) [[(0, 0), (1, 0)]]
        [defaultProps]).length
      = (if defaultProps.oneway then 1 else 2)
          * List.countP (fun s => decide (2 ≤ s.length)) [[(0, 0), (1, 0)]] :=
  (edges_carry_first_feature_props 1 (fun _ => 1) [[(0, 0), (1, 0)]]
    defaultProps []).2.2

/-! ## Theorems about empty input (claim C7) -/

/-- C7 counterexample: at the empty feature collection the pipeline does
not return an empty route with valid true - calculate_route raises
ValueError (No valid street network found) on the empty graph, even when
the rest of the pipeline would have produced exactly the empty valid
route the claim expects. -/
theorem empty_input_does_not_return_empty_route :
    calculateRouteGate (buildStreetGraph (1/1000000) (fun _ => 1) id [])
        (fun _ => .ok { coordinates := [], length_m := 0, drive_time_s := 0,
                        valid := true, continuity_violations := 0 })
      = .error "No valid street network found" := rfl

/-- C7 amended: on empty input (no features, or no valid LineStrings)
build_street_graph returns the empty graph without raising, and
calculate_route then fails with ValueError (No valid street network
found) instead of returning a route. -/
theorem empty_input_fails (tol : ℚ) (glen : List Point → ℚ)
    (split : List (List Point) → List (List Point))
    (features : List Feature)
    (rest : List Edge → Except String RouteResult)
    (h : (extractLinesAndProps features).1 = []) :
    buildStreetGraph tol glen split features = []
    ∧ calculateRouteGate (buildStreetGraph tol glen split features) rest
        = .error "No valid street network found" := by
  have hg : buildStreetGraph tol glen split features = [] := by
    unfold buildStreetGraph
    split
    · rfl
    · simp [h]
  exact ⟨hg, by rw [hg]; rfl⟩

/-- Witness for C7 at the concrete empty input. -/
theorem empty_input_fails_witness :
    buildStreetGraph 1 (fun _ => 1) id [] = []
    ∧ calculateRouteGate (buildStreetGraph 1 (fun _ => 1) id [])
        (fun _ => .error "") = .error "No valid street network found" :=
  empty_input_fails 1 (fun _ => 1) id [] (fun _ => .error "") rfl

/-! ## Theorems about circuit assembly (claims C8 and C9) -/

/-- C8: the per-edge transition of bridge_route_gaps.  With a the last
emitted point and b the head of the next edge geometry: a gap of at most
1 mm appends the edge skipping its first point; a gap of at most 20 m
appends b and then the edge without consulting the oracle; a larger gap
appends the oracle polyline with endpoints snapped exactly onto a and b
(skipping its first point, which is then a itself) followed by the edge
skipping its first point. -/
theorem append_segment_cases (dist : Point → Point → ℚ)
    (oracle : Point → Point → List Point) (out : List Point)
    (a b : Point) (rest : List Point)
    (hout : out ≠ []) (hlast : out.getLast? = some a) :
    (dist a b ≤ 1/1000 →
        appendSegment dist oracle out (b :: rest) = out ++ rest)
    ∧ (1/1000 < dist a b → dist a b ≤ 20 →
        appendSegment dist oracle out (b :: rest) = out ++ b :: rest)
    ∧ (20 < dist a b → 1 < (oracle a b).length →
        appendSegment dist oracle out (b :: rest)
          = out ++ ((oracle a b).tail.dropLast ++ [b]) ++ rest
        ∧ (a :: ((oracle a b).tail.dropLast ++ [b])).head? = some a
        ∧ (a :: ((oracle a b).tail.dropLast ++ [b])).getLast? = some b) := by
  have hne : out.isEmpty = false := by
    cases out
    · exact absurd rfl hout
    · rfl
  simp only [appendSegment, hne, Bool.false_eq_true, if_false, hlast,
    List.head?_cons, List.tail_cons]
  refine ⟨fun h1 => ?_, fun h1 h2 => ?_, fun h1 h2 => ?_⟩
  · rw [if_pos h1]
  · rw [if_neg (not_le.mpr h1), if_pos h2, List.append_assoc,
      List.singleton_append]
  · rw [if_neg (not_le.mpr (by linarith : (1:ℚ)/1000 < dist a b)),
      if_neg (not_le.mpr h1), if_pos h2]
    refine ⟨rfl, trivial, ?_⟩
    rw [← List.cons_append]
    exact List.getLast?_concat _

/-- Witness for C8 at concrete inputs: the direct-join case at a 10 m
gap. -/
theorem append_segment_cases_witness :
    appendSegment (constDist 10) (fun _ _ => []) [(0, 0)] [(5, 5), (9, 9)]
      = [(0, 0)] ++ (5, 5) :: [((9 : ℚ), (9 : ℚ))] :=
  (append_segment_cases (constDist 10) (fun _ _ => []) [(0, 0)] (0, 0)
      (5, 5) [(9, 9)] (by simp) rfl).2.1 (by norm_num [constDist])
    (by norm_num [constDist])

/-- The cap invariant of the final repair loop: starting below or at the
hard cap of 200 fixes, the loop never reports more than 200 fixes. -/
theorem repairGo_fix_le (dist : Point → Point → ℚ)
    (oracle : Point → Point → List Point) :
    ∀ (coords : List Point) (i fixed : ℕ), fixed ≤ 200 →
      (repairGo dist oracle coords i fixed).2 ≤ 200 := by
  intro coords i fixed
  induction coords, i, fixed using repairGo.induct dist oracle with
  | case1 coords i fixed h hd ih =>
    intro hf
    rw [repairGo, dif_pos h, if_pos hd]
    exact ih hf
  | case2 coords i fixed h hd hb ih =>
    intro hf
    rw [repairGo, dif_pos h, if_neg hd, dif_pos hb]
    exact ih (by omega)
  | case3 coords i fixed h hd hb ih =>
    intro hf
    rw [repairGo, dif_pos h, if_neg hd, dif_neg hb]
    exact ih (by omega)
  | case4 coords i fixed h =>
    intro hf
    rw [repairGo, dif_neg h]
    exact hf

/-- C9: the final repair pass is a total function (the definition of
repairGo is accepted by the termination checker with measure
length - i, which strictly decreases in every branch), it reports at
most 200 fixes, and at a bridged gap the cursor advances past the
inserted polyline: the next examined index is i + max 1 (length of the
bridge - 1).  The repaired polyline is returned by bridge_route_gaps
regardless of any remaining violations. -/
theorem repair_terminates_capped (dist : Point → Point → ℚ)
    (oracle : Point → Point → List Point) :
    (∀ coords : List Point,
        (repairContinuity dist oracle coords).2 ≤ 200)
    ∧ (∀ (coords : List Point) (i fixed : ℕ),
        i + 1 < coords.length → fixed < 200 →
        ¬ dist (coords.getD i (0, 0)) (coords.getD (i + 1) (0, 0)) ≤ 20 →
        1 < (oracle (coords.getD i (0, 0))
            (coords.getD (i + 1) (0, 0))).length →
        repairGo dist oracle coords i fixed
          = repairGo dist oracle
              (coords.take i
                ++ (coords.getD i (0, 0)
                  :: ((oracle (coords.getD i (0, 0))
                        (coords.getD (i + 1) (0, 0))).tail.dropLast
                      ++ [coords.getD (i + 1) (0, 0)]))
                ++ coords.drop (i + 2))
              (i + max 1 ((oracle (coords.getD i (0, 0))
                  (coords.getD (i + 1) (0, 0))).length - 1))
              (fixed + 1)) := by
  constructor
  · intro coords
    exact repairGo_fix_le dist oracle coords 0 0 (by omega)
  · intro coords i fixed h1 h2 h3 h4
    rw [repairGo, dif_pos ⟨h1, h2⟩, if_neg h3, dif_pos h4]

/-- Witness for C9 at concrete inputs: the cap holds on a two-point
polyline with a 25 m gap, and the bridging step advances the cursor by
the bridge length minus one. -/
theorem repair_terminates_capped_witness :
    (repairContinuity (constDist 25) bridgeOracle [(0, 0), (9, 9)]).2 ≤ 200
    ∧ repairGo (constDist 25) bridgeOracle [(0, 0), (9, 9)] 0 0
        = repairGo (constDist 25) bridgeOracle
            (([(0, 0), (9, 9)] : List Point).take 0
              ++ (([(0, 0), (9, 9)] : List Point).getD 0 (0, 0)
                :: ((bridgeOracle
                      (([(0, 0), (9, 9)] : List Point).getD 0 (0, 0))
                      (([(0, 0), (9, 9)] : List Point).getD 1 (0, 0))).tail.dropLast
                    ++ [([(0, 0), (9, 9)] : List Point).getD 1 (0, 0)]))
              ++ ([(0, 0), (9, 9)] : List Point).drop 2)
            (0 + max 1 ((bridgeOracle
                (([(0, 0), (9, 9)] : List Point).getD 0 (0, 0))
                (([(0, 0), (9, 9)] : List Point).getD 1 (0, 0))).length - 1))
            (0 + 1) :=
  ⟨(repair_terminates_capped (constDist 25) bridgeOracle).1 [(0, 0), (9, 9)],
    (repair_terminates_capped (constDist 25) bridgeOracle).2
      [(0, 0), (9, 9)] 0 0 (by norm_num) (by norm_num)
      (by norm_num [constDist]) (by simp [bridgeOracle])⟩

/-- The retry loop raises the exhaustion error when every attempt within
the bound is transient. -/
theorem retryGo_exhausts (outcomes : ℕ → Attempt) (maxRetries : ℕ)
    (htr : ∀ i, i < maxRetries → (outcomes i).transient = true) :
    ∀ j, retryGo outcomes maxRetries j
      = .error ("Failed after " ++ toString maxRetries ++ " attempts") := by
  intro j
  induction j using retryGo.induct outcomes maxRetries with
  | case1 x i hlt coords d hout =>
    have := htr i hlt
    rw [hout] at this
    simp [Attempt.transient] at this
  | case2 x i hlt hout =>
    have := htr i hlt
    rw [hout] at this
    simp [Attempt.transient] at this
  | case3 x i hlt hok hce ih =>
    rw [retryGo, dif_pos hlt]
    split
    · rename_i coords d heq
      exact absurd heq (by exact fun hc => hok coords d hc)
    · rename_i heq
      exact absurd heq hce
    · exact ih
  | case4 x i hlt =>
    rw [retryGo, dif_neg hlt]

/-- C10: when the oracle request fails - the retry loop exhausts its
bounded attempts (or any other exception is raised), or the client is
disabled - get_route returns a straight-line result consisting of
exactly the two requested endpoints with the haversine distance between
them, and surfaces the failure through the last_success flag instead of
an exception: the embedding is a total function into GetRouteResult.
When every attempt is transient the retry loop indeed reports
exhaustion. -/
theorem get_route_fallback (hav : Point → Point → ℚ) (maxRetries : ℕ)
    (outcomes : ℕ → Attempt) (start stop : Point) :
    (∀ e, retryGo outcomes maxRetries 0 = .error e →
        getRoute true hav maxRetries outcomes start stop
          = { coordinates := [start, stop], distance := hav start stop,
              lastSuccess := some false })
    ∧ getRoute false hav maxRetries outcomes start stop
        = { coordinates := [start, stop], distance := hav start stop,
            lastSuccess := none }
    ∧ ((∀ i, i < maxRetries → (outcomes i).transient = true) →
        retryGo outcomes maxRetries 0
          = .error ("Failed after " ++ toString maxRetries ++ " attempts")) := by
  refine ⟨?_, rfl, ?_⟩
  · intro e he
    simp only [getRoute, Bool.not_true, Bool.false_eq_true, if_false, he]
  · intro htr
    exact retryGo_exhausts outcomes maxRetries htr 0

/-- Witness for C10 at concrete inputs: three timeouts exhaust a
three-attempt budget and the caller receives the straight line, the
haversine distance and last_success false. -/
theorem get_route_fallback_witness :
    getRoute true (constDist 7) 3 (fun _ => Attempt.timeout) (0, 0) (1, 1)
      = { coordinates := [(0, 0), (1, 1)], distance := 7,
          lastSuccess := some false } :=
  (get_route_fallback (constDist 7) 3 (fun _ => Attempt.timeout)
      (0, 0) (1, 1)).1 _
    ((get_route_fallback (constDist 7) 3 (fun _ => Attempt.timeout)
      (0, 0) (1, 1)).2.2 (fun _ _ => rfl))

/-! ### Balance bookkeeping lemmas -/

/-- Balance is additive over edge-list concatenation. -/
theorem balanceZ_append (A B : List DiEdge) (v : ℕ) :
    balanceZ (A ++ B) v = balanceZ A v + balanceZ B v := by
  simp only [balanceZ, outDeg, inDeg, List.countP_append]
  push_cast
  ring

/-- Balance of the empty edge list. -/
theorem balanceZ_nil (v : ℕ) : balanceZ [] v = 0 := by
  simp [balanceZ, outDeg, inDeg]

/-- Balance of a single edge: plus one at its source, minus one at its
target. -/
theorem balanceZ_single (a b v : ℕ) :
    balanceZ [(a, b)] v
      = (if v = a then 1 else 0) - (if v = b then 1 else 0) := by
  simp only [balanceZ, outDeg, inDeg, List.countP_cons, List.countP_nil,
    decide_eq_true_eq]
  by_cases ha : v = a <;> by_cases hb : v = b
  · subst ha
    subst hb
    simp
  · subst ha
    simp [hb, Ne.symm hb]
  · subst hb
    simp [ha, Ne.symm ha]
  · simp [ha, hb, Ne.symm ha, Ne.symm hb]

/-- The steps of a path telescope: the balance of its edge list is plus
one at the head and minus one at the last node. -/
theorem balanceZ_pathSteps (p : List ℕ) (s d v : ℕ)
    (hh : p.head? = some s) (hl : p.getLast? = some d) :
    balanceZ (pathSteps p) v
      = (if v = s then 1 else 0) - (if v = d then 1 else 0) := by
  induction p generalizing s with
  | nil => simp at hh
  | cons x t ih =>
    have hs : s = x := by simpa using hh.symm
    subst hs
    cases t with
    | nil =>
      have hd : d = s := by simpa using hl.symm
      subst hd
      simp [pathSteps, balanceZ_nil]
    | cons y t2 =>
      have hstep : pathSteps (s :: y :: t2) = (s, y) :: pathSteps (y :: t2) := rfl
      rw [hstep, show ((s, y) :: pathSteps (y :: t2))
          = [(s, y)] ++ pathSteps (y :: t2) from rfl,
        balanceZ_append, balanceZ_single,
        ih y (by simp) (by rwa [List.getLast?_cons_cons] at hl)]
      ring

/-- Balance of n copies of an edge list. -/
theorem balanceZ_flatten_replicate (n : ℕ) (L : List DiEdge) (v : ℕ) :
    balanceZ (List.replicate n L).flatten v = n * balanceZ L v := by
  induction n with
  | zero => simp [balanceZ_nil]
  | succ k ih =>
    rw [List.replicate_succ, List.flatten_cons, balanceZ_append, ih]
    push_cast
    ring

/-- Balance distributes over flatMap as a sum. -/
theorem balanceZ_flatMap {α : Type} (l : List α) (f : α → List DiEdge)
    (v : ℕ) :
    balanceZ (l.flatMap f) v = (l.map (fun x => balanceZ (f x) v)).sum := by
  induction l with
  | nil => simp [balanceZ_nil]
  | cons a t ih => rw [List.flatMap_cons, balanceZ_append, ih]; simp

/-- Balance contributed by the duplications of one supply-demand pair:
the flow times plus one at the supply end and minus one at the demand
end, provided positive flow follows a recorded path through existing
edges. -/
theorem balanceZ_dupEdgesFor (E : List DiEdge) (flow : ℕ → ℕ → ℕ)
    (paths : ℕ → ℕ → Option (List ℕ)) (s d v : ℕ)
    (hp : 0 < flow s d → ∃ p, paths s d = some p ∧ p.head? = some s
        ∧ p.getLast? = some d ∧ ∀ e ∈ pathSteps p, e ∈ E) :
    balanceZ (dupEdgesFor E flow paths s d) v
      = (flow s d : ℤ)
          * ((if v = s then 1 else 0) - (if v = d then 1 else 0)) := by
  by_cases hf : 0 < flow s d
  · obtain ⟨p, hps, hh, hl, hmem⟩ := hp hf
    have hpne : p ≠ [] := by
      intro h
      rw [h] at hh
      simp at hh
    rw [dupEdgesFor, hps]
    simp only [if_pos (And.intro hf hpne)]
    rw [List.filter_eq_self.mpr
        (fun e he => decide_eq_true (hmem e he)),
      balanceZ_flatten_replicate, balanceZ_pathSteps p s d v hh hl]
  · have hz : flow s d = 0 := by omega
    rw [dupEdgesFor]
    cases paths s d with
    | none => simp [hz, balanceZ_nil]
    | some p => simp [hz, balanceZ_nil]

/-- Summing an integer-valued map pointwise difference. -/
theorem lsum_sub {α : Type} (l : List α) (f g : α → ℤ) :
    (l.map (fun x => f x - g x)).sum = (l.map f).sum - (l.map g).sum := by
  induction l with
  | nil => simp
  | cons a t ih => simp [ih]; ring

/-- Summing a delta against a duplicate-free list picks out the single
matching entry. -/
theorem lsum_ite_eq (l : List ℕ) (hnd : l.Nodup) (v : ℕ) (A : ℕ → ℤ) :
    (l.map (fun s => if v = s then A s else 0)).sum
      = if v ∈ l then A v else 0 := by
  induction l with
  | nil => simp
  | cons a t ih =>
    obtain ⟨ha, ht⟩ := List.nodup_cons.mp hnd
    rw [List.map_cons, List.sum_cons, ih ht]
    by_cases hv : v = a
    · subst hv
      simp [ha]
    · simp [hv, List.mem_cons]

/-- A constant-condition if pulls out of a sum. -/
theorem lsum_ite_const {α : Type} (l : List α) (c : Prop) [Decidable c]
    (f : α → ℤ) :
    (l.map (fun x => if c then f x else 0)).sum
      = if c then (l.map f).sum else 0 := by
  by_cases hc : c <;> simp [hc]

/-- Integer-valued pointwise sums distribute. -/
theorem lsum_add {α : Type} (l : List α) (f g : α → ℤ) :
    (l.map (fun x => f x + g x)).sum = (l.map f).sum + (l.map g).sum := by
  induction l with
  | nil => simp
  | cons a t ih =>
    simp only [List.map_cons, List.sum_cons, ih]
    ring

/-- Nat-valued pointwise sums distribute. -/
theorem lsum_nat_add {α : Type} (l : List α) (f g : α → ℕ) :
    (l.map (fun x => f x + g x)).sum = (l.map f).sum + (l.map g).sum := by
  induction l with
  | nil => simp
  | cons a t ih =>
    simp only [List.map_cons, List.sum_cons, ih]
    ring

/-- Nat delta sum against a duplicate-free list. -/
theorem lsum_nat_delta (l : List ℕ) (hnd : l.Nodup) (a : ℕ) (x : ℕ → ℕ) :
    (l.map (fun v => if a = v then x v else 0)).sum
      = if a ∈ l then x a else 0 := by
  induction l with
  | nil => simp
  | cons b t ih =>
    obtain ⟨hb, ht⟩ := List.nodup_cons.mp hnd
    rw [List.map_cons, List.sum_cons, ih ht]
    by_cases hab : a = b
    · subst hab
      simp [hb]
    · simp [hab, List.mem_cons]

/-- Each edge is counted exactly once when summing the counts of an
attribute over a duplicate-free list containing every attribute value. -/
theorem sum_countP_attr (V : List ℕ) (hnd : V.Nodup) (E : List DiEdge)
    (f : DiEdge → ℕ) (hf : ∀ e ∈ E, f e ∈ V) :
    (V.map (fun v => E.countP (fun e => decide (f e = v)))).sum
      = E.length := by
  induction E with
  | nil => simp
  | cons e E2 ih =>
    have hfe : f e ∈ V := hf e (List.mem_cons_self _ _)
    have ih2 := ih (fun x hx => hf x (List.mem_cons_of_mem _ hx))
    have hsplit : ∀ v : ℕ, (e :: E2).countP (fun x => decide (f x = v))
        = E2.countP (fun x => decide (f x = v))
          + (if f e = v then 1 else 0) := by
      intro v
      rw [List.countP_cons]
      by_cases h : f e = v <;> simp [h]
    calc (V.map (fun v => (e :: E2).countP (fun x => decide (f x = v)))).sum
        = (V.map (fun v => E2.countP (fun x => decide (f x = v))
            + (if f e = v then 1 else 0))).sum :=
          congrArg _ (List.map_congr_left (fun v _ => hsplit v))
      _ = (V.map (fun v => E2.countP (fun x => decide (f x = v)))).sum
          + (V.map (fun v => if f e = v then 1 else 0)).sum :=
          lsum_nat_add _ _ _
      _ = E2.length + 1 := by
          rw [ih2, lsum_nat_delta V hnd (f e) (fun _ => 1), if_pos hfe]
      _ = (e :: E2).length := by simp

/-- Casting a Nat-valued sum to integers. -/
theorem lsum_cast {α : Type} (l : List α) (f : α → ℕ) :
    (l.map (fun x => (f x : ℤ))).sum = ((l.map f).sum : ℤ) := by
  induction l with
  | nil => simp
  | cons a t ih => simp [ih]

/-- The balances over a node list covering all edge endpoints sum to
zero: the total deficit always matches the total surplus, which is why
the flow problem posed by _make_eulerian_directed is balanced. -/
theorem balance_sum_zero (V : List ℕ) (E : List DiEdge) (hnd : V.Nodup)
    (hV : ∀ e ∈ E, e.1 ∈ V ∧ e.2 ∈ V) :
    (V.map (fun v => balanceZ E v)).sum = 0 := by
  have hout : (V.map (fun v => outDeg E v)).sum = E.length := by
    simp only [outDeg]
    exact sum_countP_attr V hnd E Prod.fst (fun e he => (hV e he).1)
  have hin : (V.map (fun v => inDeg E v)).sum = E.length := by
    simp only [inDeg]
    exact sum_countP_attr V hnd E Prod.snd (fun e he => (hV e he).2)
  calc (V.map (fun v => balanceZ E v)).sum
      = (V.map (fun v => (outDeg E v : ℤ))).sum
        - (V.map (fun v => (inDeg E v : ℤ))).sum := lsum_sub _ _ _
    _ = 0 := by rw [lsum_cast, lsum_cast, hout, hin]; ring

/-- Summing over a filtered list equals summing the guarded values. -/
theorem lsum_filter (l : List ℕ) (p : ℕ → Bool) (f : ℕ → ℤ) :
    ((l.filter p).map f).sum
      = (l.map (fun v => if p v = true then f v else 0)).sum := by
  induction l with
  | nil => simp
  | cons a t ih =>
    by_cases h : p a = true
    · rw [List.filter_cons_of_pos h]
      simp [h, ih]
    · rw [List.filter_cons_of_neg (by simpa using h)]
      simp [h, ih]

/-- The total surplus of the demand nodes equals the total deficit of
the supply nodes. -/
theorem supply_demand_totals (V : List ℕ) (E : List DiEdge)
    (hnd : V.Nodup) (hV : ∀ e ∈ E, e.1 ∈ V ∧ e.2 ∈ V) :
    ((supplyNodes V E).map (fun s => -balanceZ E s)).sum
      = ((demandNodes V E).map (fun d => balanceZ E d)).sum := by
  have hA : ((supplyNodes V E).map (fun s => balanceZ E s)).sum
      = (V.map (fun v =>
          if balanceZ E v < 0 then balanceZ E v else 0)).sum := by
    rw [supplyNodes, lsum_filter]
    refine congrArg _ (List.map_congr_left fun v _ => ?_)
    by_cases h : balanceZ E v < 0 <;> simp [h]
  have hB : ((demandNodes V E).map (fun d => balanceZ E d)).sum
      = (V.map (fun v =>
          if 0 < balanceZ E v then balanceZ E v else 0)).sum := by
    rw [demandNodes, lsum_filter]
    refine congrArg _ (List.map_congr_left fun v _ => ?_)
    by_cases h : 0 < balanceZ E v <;> simp [h]
  have hAB : (V.map (fun v =>
        if balanceZ E v < 0 then balanceZ E v else 0)).sum
      + (V.map (fun v =>
        if 0 < balanceZ E v then balanceZ E v else 0)).sum
      = (V.map (fun v => balanceZ E v)).sum := by
    rw [← lsum_add]
    refine congrArg _ (List.map_congr_left fun v _ => ?_)
    split_ifs <;> omega
  have h0 := balance_sum_zero V E hnd hV
  have hneg : ((supplyNodes V E).map (fun s => -balanceZ E s)).sum
      = -((supplyNodes V E).map (fun s => balanceZ E s)).sum := by
    have h := lsum_sub (supplyNodes V E) (fun _ => 0)
      (fun s => balanceZ E s)
    simpa using h
  rw [hneg]
  omega

/-- Splitting an association-list amount at a cons cell. -/
theorem amountOf_cons (a : ℕ × ℕ) (l : List (ℕ × ℕ)) (d : ℕ) :
    amountOf (a :: l) d = (if a.1 = d then a.2 else 0) + amountOf l d := by
  rw [amountOf]
  by_cases h : a.1 = d
  · rw [List.filter_cons_of_pos (by simpa using h)]
    simp [h, amountOf]
  · rw [List.filter_cons_of_neg (by simpa using h)]
    simp [h, amountOf]

/-- Splitting a total amount at a cons cell. -/
theorem totalAmount_cons (a : ℕ × ℕ) (l : List (ℕ × ℕ)) :
    totalAmount (a :: l) = a.2 + totalAmount l := by
  simp [totalAmount]

/-- The greedy inner loop conserves each demand key: assigned plus
remaining equals the original amount. -/
theorem greedyInner_conserve (rs : ℕ) (dem : List (ℕ × ℕ)) (d : ℕ) :
    amountOf (greedyInner rs dem).1 d + amountOf (greedyInner rs dem).2 d
      = amountOf dem d := by
  induction dem generalizing rs with
  | nil => simp [greedyInner, amountOf]
  | cons e rest ih =>
    obtain ⟨d2, rd⟩ := e
    simp only [greedyInner]
    split
    · rename_i hpos
      simp only [amountOf_cons]
      have h := ih (rs - min rs rd)
      by_cases hd : d2 = d <;> simp [hd] <;> omega
    · rename_i hneg
      simp only [amountOf_cons]
      have h := ih rs
      by_cases hd : d2 = d <;> simp [hd] <;> omega

/-- The greedy inner loop assigns exactly the minimum of the supply and
the total remaining demand, leaving the rest. -/
theorem greedyInner_total (rs : ℕ) (dem : List (ℕ × ℕ)) :
    totalAmount (greedyInner rs dem).1 = min rs (totalAmount dem)
    ∧ totalAmount (greedyInner rs dem).2
      = totalAmount dem - min rs (totalAmount dem) := by
  induction dem generalizing rs with
  | nil => simp [greedyInner, totalAmount]
  | cons e rest ih =>
    obtain ⟨d2, rd⟩ := e
    simp only [greedyInner]
    split
    · rename_i hpos
      obtain ⟨h1, h2⟩ := ih (rs - min rs rd)
      refine ⟨?_, ?_⟩ <;> simp only [totalAmount_cons] <;> omega
    · rename_i hneg
      obtain ⟨h1, h2⟩ := ih rs
      have hcase : rs = 0 ∨ rd = 0 := by
        by_cases hrs : 0 < rs
        · by_cases hrd : 0 < rd
          · exact absurd ⟨hrs, hrd⟩ hneg
          · right
            omega
        · left
          omega
      refine ⟨?_, ?_⟩ <;> simp only [totalAmount_cons] <;> omega

/-- Every key assigned by the greedy inner loop is a demand key. -/
theorem greedyInner_sub_keys (rs : ℕ) (dem : List (ℕ × ℕ)) :
    ∀ e ∈ (greedyInner rs dem).1, e.1 ∈ dem.map Prod.fst := by
  induction dem generalizing rs with
  | nil => simp [greedyInner]
  | cons b rest ih =>
    obtain ⟨d2, rd⟩ := b
    simp only [greedyInner]
    split
    · intro e he
      rcases List.mem_cons.mp he with h | h
      · subst h
        simp
      · exact List.mem_cons_of_mem _ (ih _ e h)
    · intro e he
      exact List.mem_cons_of_mem _ (ih rs e he)

/-- The greedy inner loop preserves the demand keys in order. -/
theorem greedyInner_keys (rs : ℕ) (dem : List (ℕ × ℕ)) :
    (greedyInner rs dem).2.map Prod.fst = dem.map Prod.fst := by
  induction dem generalizing rs with
  | nil => simp [greedyInner]
  | cons b rest ih =>
    obtain ⟨d2, rd⟩ := b
    simp only [greedyInner]
    split <;> simp [ih]

/-- Splitting the outgoing flow at a cons cell. -/
theorem flowFrom_cons (t : ℕ × ℕ × ℕ) (F : List (ℕ × ℕ × ℕ)) (s : ℕ) :
    flowFrom (t :: F) s = (if t.1 = s then t.2.2 else 0) + flowFrom F s := by
  rw [flowFrom]
  by_cases h : t.1 = s
  · rw [List.filter_cons_of_pos (by simpa using h)]
    simp [h, flowFrom]
  · rw [List.filter_cons_of_neg (by simpa using h)]
    simp [h, flowFrom]

/-- Splitting the incoming flow at a cons cell. -/
theorem flowTo_cons (t : ℕ × ℕ × ℕ) (F : List (ℕ × ℕ × ℕ)) (d : ℕ) :
    flowTo (t :: F) d = (if t.2.1 = d then t.2.2 else 0) + flowTo F d := by
  rw [flowTo]
  by_cases h : t.2.1 = d
  · rw [List.filter_cons_of_pos (by simpa using h)]
    simp [h, flowTo]
  · rw [List.filter_cons_of_neg (by simpa using h)]
    simp [h, flowTo]

/-- Splitting a pairwise flow at a cons cell. -/
theorem flowOf_cons (t : ℕ × ℕ × ℕ) (F : List (ℕ × ℕ × ℕ)) (s d : ℕ) :
    flowOf (t :: F) s d
      = (if t.1 = s ∧ t.2.1 = d then t.2.2 else 0) + flowOf F s d := by
  rw [flowOf]
  by_cases h : t.1 = s ∧ t.2.1 = d
  · rw [List.filter_cons_of_pos (by simpa using h)]
    simp [h, flowOf]
  · rw [List.filter_cons_of_neg (by simpa using h)]
    simp [h, flowOf]

/-- Outgoing flow is additive over concatenation. -/
theorem flowFrom_append (A B : List (ℕ × ℕ × ℕ)) (s : ℕ) :
    flowFrom (A ++ B) s = flowFrom A s + flowFrom B s := by
  simp [flowFrom, List.filter_append]

/-- Incoming flow is additive over concatenation. -/
theorem flowTo_append (A B : List (ℕ × ℕ × ℕ)) (d : ℕ) :
    flowTo (A ++ B) d = flowTo A d + flowTo B d := by
  simp [flowTo, List.filter_append]

/-- Incoming flow of assignments tagged with one supply node is the
association-list amount. -/
theorem flowTo_map_inner (l : List (ℕ × ℕ)) (s0 d : ℕ) :
    flowTo (l.map (fun df => (s0, df.1, df.2))) d = amountOf l d := by
  induction l with
  | nil => simp [flowTo, amountOf]
  | cons b t ih =>
    rw [List.map_cons, flowTo_cons, amountOf_cons, ih]

/-- Outgoing flow of assignments tagged with one supply node: the whole
total at that node, nothing elsewhere. -/
theorem flowFrom_map_inner (l : List (ℕ × ℕ)) (s0 s : ℕ) :
    flowFrom (l.map (fun df => (s0, df.1, df.2))) s
      = if s0 = s then totalAmount l else 0 := by
  induction l with
  | nil => simp [flowFrom, totalAmount]
  | cons b t ih =>
    rw [List.map_cons, flowFrom_cons, ih, totalAmount_cons]
    by_cases h : s0 = s <;> simp [h]

/-- Outgoing flow vanishes at a node that labels no assignment. -/
theorem flowFrom_eq_zero (F : List (ℕ × ℕ × ℕ)) (s : ℕ)
    (h : ∀ t ∈ F, ¬ t.1 = s) : flowFrom F s = 0 := by
  induction F with
  | nil => simp [flowFrom]
  | cons t F2 ih =>
    rw [flowFrom_cons, if_neg (h t (List.mem_cons_self _ _)),
      ih (fun x hx => h x (List.mem_cons_of_mem _ hx))]

/-- Every assignment of the greedy outer loop is labelled by a supply
key. -/
theorem greedyOuter_src (sup dem : List (ℕ × ℕ)) :
    ∀ t ∈ greedyOuter sup dem, t.1 ∈ sup.map Prod.fst := by
  induction sup generalizing dem with
  | nil => simp [greedyOuter]
  | cons p srest ih =>
    obtain ⟨s0, rs0⟩ := p
    intro t ht
    simp only [greedyOuter] at ht
    rcases List.mem_append.mp ht with h | h
    · obtain ⟨df, _, rfl⟩ := List.mem_map.mp h
      simp
    · exact List.mem_cons_of_mem _ (ih _ t h)

/-- Every assignment of the greedy outer loop targets a demand key. -/
theorem greedyOuter_tgt (sup dem : List (ℕ × ℕ)) :
    ∀ t ∈ greedyOuter sup dem, t.2.1 ∈ dem.map Prod.fst := by
  induction sup generalizing dem with
  | nil => simp [greedyOuter]
  | cons p srest ih =>
    obtain ⟨s0, rs0⟩ := p
    intro t ht
    simp only [greedyOuter] at ht
    rcases List.mem_append.mp ht with h | h
    · obtain ⟨df, hdf, rfl⟩ := List.mem_map.mp h
      exact greedyInner_sub_keys rs0 dem df hdf
    · have := ih (greedyInner rs0 dem).2 t h
      rwa [greedyInner_keys] at this

/-- The greedy outer loop conserves each demand key: routed plus
remaining equals the original amount. -/
theorem greedyOuter_conserve (sup dem : List (ℕ × ℕ)) (d : ℕ) :
    flowTo (greedyOuter sup dem) d + amountOf (greedyOuterDem sup dem) d
      = amountOf dem d := by
  induction sup generalizing dem with
  | nil => simp [greedyOuter, greedyOuterDem, flowTo]
  | cons p srest ih =>
    obtain ⟨s0, rs0⟩ := p
    simp only [greedyOuter, greedyOuterDem]
    rw [flowTo_append, flowTo_map_inner]
    have h1 := ih (greedyInner rs0 dem).2
    have h2 := greedyInner_conserve rs0 dem d
    omega

/-- Total remaining demand after the greedy outer loop, when the total
supply does not exceed the total demand. -/
theorem greedyOuterDem_total (sup dem : List (ℕ × ℕ))
    (hle : totalAmount sup ≤ totalAmount dem) :
    totalAmount (greedyOuterDem sup dem)
      = totalAmount dem - totalAmount sup := by
  induction sup generalizing dem with
  | nil => simp [greedyOuterDem, totalAmount]
  | cons p srest ih =>
    obtain ⟨s0, rs0⟩ := p
    simp only [greedyOuterDem]
    have h2 := (greedyInner_total rs0 dem).2
    simp only [totalAmount_cons] at hle ⊢
    have hle2 : totalAmount srest ≤ totalAmount (greedyInner rs0 dem).2 := by
      omega
    rw [ih _ hle2, h2]
    omega

/-- A keyed amount never exceeds the total amount. -/
theorem amountOf_le_total (l : List (ℕ × ℕ)) (d : ℕ) :
    amountOf l d ≤ totalAmount l := by
  induction l with
  | nil => simp [amountOf, totalAmount]
  | cons b t ih =>
    rw [amountOf_cons, totalAmount_cons]
    by_cases h : b.1 = d <;> simp [h] <;> omega

/-- Each supply node distributes exactly its amount, provided the supply
keys are duplicate-free and the total demand can absorb the total
supply. -/
theorem greedyOuter_from (sup dem : List (ℕ × ℕ))
    (hnd : (sup.map Prod.fst).Nodup)
    (hle : totalAmount sup ≤ totalAmount dem) :
    ∀ p ∈ sup, flowFrom (greedyOuter sup dem) p.1 = p.2 := by
  induction sup generalizing dem with
  | nil => simp
  | cons q srest ih =>
    obtain ⟨s0, rs0⟩ := q
    have hnd2 : (s0 :: srest.map Prod.fst).Nodup := by simpa using hnd
    obtain ⟨hs0, hndrest⟩ := List.nodup_cons.mp hnd2
    intro p hp
    simp only [totalAmount_cons] at hle
    have htot2 : totalAmount srest ≤ totalAmount (greedyInner rs0 dem).2 := by
      have := (greedyInner_total rs0 dem).2
      omega
    simp only [greedyOuter]
    rw [flowFrom_append, flowFrom_map_inner]
    rcases List.mem_cons.mp hp with h | h
    · subst h
      have hzero : flowFrom (greedyOuter srest (greedyInner rs0 dem).2)
          s0 = 0 := by
        apply flowFrom_eq_zero
        intro t ht hc
        exact hs0 (hc ▸ greedyOuter_src srest _ t ht)
      have h1 := (greedyInner_total rs0 dem).1
      rw [hzero, if_pos rfl, h1]
      omega
    · have hne : s0 ≠ p.1 := by
        intro hc
        exact hs0 (hc ▸ List.mem_map_of_mem Prod.fst h)
      rw [if_neg hne]
      have := ih (greedyInner rs0 dem).2 hndrest htot2 p h
      omega

/-- Each demand node receives exactly its amount when the totals agree. -/
theorem greedyOuter_to (sup dem : List (ℕ × ℕ))
    (htot : totalAmount sup = totalAmount dem) (d : ℕ) :
    flowTo (greedyOuter sup dem) d = amountOf dem d := by
  have hcons := greedyOuter_conserve sup dem d
  have hfin : totalAmount (greedyOuterDem sup dem) = 0 := by
    rw [greedyOuterDem_total sup dem (le_of_eq htot)]
    omega
  have hle := amountOf_le_total (greedyOuterDem sup dem) d
  omega

/-- The constant-zero map sums to zero. -/
theorem lsum_nat_zero {α : Type} (l : List α) :
    (l.map (fun _ => (0 : ℕ))).sum = 0 := by
  induction l <;> simp_all

/-- An association list keyed by absent elements carries no amount. -/
theorem amountOf_map_zero (D : List ℕ) (a : ℕ → ℕ) (d : ℕ)
    (hd : d ∉ D) :
    amountOf (D.map (fun x => (x, a x))) d = 0 := by
  induction D with
  | nil => simp [amountOf]
  | cons b t ih =>
    rw [List.map_cons, amountOf_cons]
    have hb : b ≠ d := fun hc => hd (hc ▸ List.mem_cons_self _ _)
    rw [if_neg hb, ih (fun hc => hd (List.mem_cons_of_mem _ hc))]

/-- Reading an amount back from a keyed association list built over a
duplicate-free key list. -/
theorem amountOf_map (D : List ℕ) (hnd : D.Nodup) (a : ℕ → ℕ) (d : ℕ)
    (hd : d ∈ D) :
    amountOf (D.map (fun x => (x, a x))) d = a d := by
  induction D with
  | nil => simp at hd
  | cons b t ih =>
    obtain ⟨hb, ht⟩ := List.nodup_cons.mp hnd
    rw [List.map_cons, amountOf_cons]
    rcases List.mem_cons.mp hd with h | h
    · subst h
      rw [if_pos rfl, amountOf_map_zero t a d hb]
      simp
    · have hbd : b ≠ d := fun hc => hb (hc ▸ h)
      rw [if_neg hbd, ih ht h]
      simp

/-- Summing the pairwise flow out of one supply node over all demand
keys gives the total outgoing flow, when every assignment targets a
demand key. -/
theorem sum_flowOf (D : List ℕ) (hndD : D.Nodup)
    (F : List (ℕ × ℕ × ℕ)) (s : ℕ)
    (hT : ∀ t ∈ F, t.2.1 ∈ D) :
    (D.map (fun d => flowOf F s d)).sum = flowFrom F s := by
  induction F with
  | nil =>
    simp only [flowOf, flowFrom, List.filter_nil, List.map_nil,
      List.sum_nil]
    exact lsum_nat_zero D
  | cons t F2 ih =>
    have hT2 : ∀ x ∈ F2, x.2.1 ∈ D := fun x hx =>
      hT x (List.mem_cons_of_mem _ hx)
    have hite : (D.map (fun d =>
        if t.1 = s ∧ t.2.1 = d then t.2.2 else 0)).sum
        = (if t.1 = s then t.2.2 else 0) := by
      by_cases hts : t.1 = s
      · simp only [hts, true_and]
        rw [lsum_nat_delta D hndD t.2.1 (fun _ => t.2.2),
          if_pos (hT t (List.mem_cons_self _ _))]
        simp [hts]
      · simp only [hts, false_and, if_false]
        exact lsum_nat_zero D
    calc (D.map (fun d => flowOf (t :: F2) s d)).sum
        = (D.map (fun d =>
            (if t.1 = s ∧ t.2.1 = d then t.2.2 else 0)
              + flowOf F2 s d)).sum :=
          congrArg _ (List.map_congr_left fun d _ => flowOf_cons t F2 s d)
      _ = (D.map (fun d =>
            if t.1 = s ∧ t.2.1 = d then t.2.2 else 0)).sum
          + (D.map (fun d => flowOf F2 s d)).sum := lsum_nat_add _ _ _
      _ = (if t.1 = s then t.2.2 else 0) + flowFrom F2 s := by
          rw [hite, ih hT2]
      _ = flowFrom (t :: F2) s := (flowFrom_cons t F2 s).symm

/-- Summing the pairwise flow into one demand node over all supply keys
gives the total incoming flow, when every assignment is labelled by a
supply key. -/
theorem sum_flowOf_to (S : List ℕ) (hndS : S.Nodup)
    (F : List (ℕ × ℕ × ℕ)) (d : ℕ)
    (hS : ∀ t ∈ F, t.1 ∈ S) :
    (S.map (fun s => flowOf F s d)).sum = flowTo F d := by
  induction F with
  | nil =>
    simp only [flowOf, flowTo, List.filter_nil, List.map_nil,
      List.sum_nil]
    exact lsum_nat_zero S
  | cons t F2 ih =>
    have hS2 : ∀ x ∈ F2, x.1 ∈ S := fun x hx =>
      hS x (List.mem_cons_of_mem _ hx)
    have hite : (S.map (fun s =>
        if t.1 = s ∧ t.2.1 = d then t.2.2 else 0)).sum
        = (if t.2.1 = d then t.2.2 else 0) := by
      by_cases htd : t.2.1 = d
      · simp only [htd, and_true]
        rw [lsum_nat_delta S hndS t.1 (fun _ => t.2.2),
          if_pos (hS t (List.mem_cons_self _ _))]
        simp [htd]
      · simp only [htd, and_false, if_false]
        exact lsum_nat_zero S
    calc (S.map (fun s => flowOf (t :: F2) s d)).sum
        = (S.map (fun s =>
            (if t.1 = s ∧ t.2.1 = d then t.2.2 else 0)
              + flowOf F2 s d)).sum :=
          congrArg _ (List.map_congr_left fun s _ => flowOf_cons t F2 s d)
      _ = (S.map (fun s =>
            if t.1 = s ∧ t.2.1 = d then t.2.2 else 0)).sum
          + (S.map (fun s => flowOf F2 s d)).sum := lsum_nat_add _ _ _
      _ = (if t.2.1 = d then t.2.2 else 0) + flowTo F2 d := by
          rw [hite, ih hS2]
      _ = flowTo (t :: F2) d := (flowTo_cons t F2 d).symm

/-- The greedy fallback of _simple_flow_fallback produces a saturating
flow: every supply node ships exactly its deficit and every demand node
receives exactly its surplus.  Together with the main balance theorem
this grounds the fallback branch of the Eulerization step. -/
theorem simpleFlowFallback_saturates (V : List ℕ) (E : List DiEdge)
    (hnd : V.Nodup) (hV : ∀ e ∈ E, e.1 ∈ V ∧ e.2 ∈ V) :
    (∀ s ∈ supplyNodes V E,
      ((demandNodes V E).map
        (fun d => (flowOf (simpleFlowFallback V E) s d : ℤ))).sum
        = -balanceZ E s)
    ∧ (∀ d ∈ demandNodes V E,
      ((supplyNodes V E).map
        (fun s => (flowOf (simpleFlowFallback V E) s d : ℤ))).sum
        = balanceZ E d) := by
  have hndS : (supplyNodes V E).Nodup := hnd.filter _
  have hndD : (demandNodes V E).Nodup := hnd.filter _
  have hF : simpleFlowFallback V E
      = greedyOuter
          ((supplyNodes V E).map (fun s => (s, (-balanceZ E s).toNat)))
          ((demandNodes V E).map (fun d => (d, (balanceZ E d).toNat))) :=
    rfl
  have hsupkeys : ((supplyNodes V E).map
      (fun s => (s, (-balanceZ E s).toNat))).map Prod.fst
      = supplyNodes V E := by
    rw [List.map_map]
    exact List.map_id _
  have hdemkeys : ((demandNodes V E).map
      (fun d => (d, (balanceZ E d).toNat))).map Prod.fst
      = demandNodes V E := by
    rw [List.map_map]
    exact List.map_id _
  have hcast_s : ∀ s ∈ supplyNodes V E,
      (((-balanceZ E s).toNat : ℤ)) = -balanceZ E s := by
    intro s hs
    have hlt : balanceZ E s < 0 := by
      simpa using (List.mem_filter.mp hs).2
    omega
  have hcast_d : ∀ d ∈ demandNodes V E,
      (((balanceZ E d).toNat : ℤ)) = balanceZ E d := by
    intro d hd
    have hlt : 0 < balanceZ E d := by
      simpa using (List.mem_filter.mp hd).2
    omega
  have htotsup : (totalAmount ((supplyNodes V E).map
      (fun s => (s, (-balanceZ E s).toNat))) : ℤ)
      = ((supplyNodes V E).map (fun s => -balanceZ E s)).sum := by
    have h1 : totalAmount ((supplyNodes V E).map
        (fun s => (s, (-balanceZ E s).toNat)))
        = ((supplyNodes V E).map (fun s => (-balanceZ E s).toNat)).sum := by
      rw [totalAmount, List.map_map]
      rfl
    rw [h1, ← lsum_cast]
    exact congrArg _ (List.map_congr_left hcast_s)
  have htotdem : (totalAmount ((demandNodes V E).map
      (fun d => (d, (balanceZ E d).toNat))) : ℤ)
      = ((demandNodes V E).map (fun d => balanceZ E d)).sum := by
    have h1 : totalAmount ((demandNodes V E).map
        (fun d => (d, (balanceZ E d).toNat)))
        = ((demandNodes V E).map (fun d => (balanceZ E d).toNat)).sum := by
      rw [totalAmount, List.map_map]
      rfl
    rw [h1, ← lsum_cast]
    exact congrArg _ (List.map_congr_left hcast_d)
  have htot : totalAmount ((supplyNodes V E).map
      (fun s => (s, (-balanceZ E s).toNat)))
      = totalAmount ((demandNodes V E).map
        (fun d => (d, (balanceZ E d).toNat))) := by
    have h0 := supply_demand_totals V E hnd hV
    omega
  have hsrc : ∀ t ∈ simpleFlowFallback V E, t.1 ∈ supplyNodes V E := by
    intro t ht
    rw [hF] at ht
    have := greedyOuter_src _ _ t ht
    rwa [hsupkeys] at this
  have htgt : ∀ t ∈ simpleFlowFallback V E, t.2.1 ∈ demandNodes V E := by
    intro t ht
    rw [hF] at ht
    have := greedyOuter_tgt _ _ t ht
    rwa [hdemkeys] at this
  constructor
  · intro s hs
    have hfrom : flowFrom (simpleFlowFallback V E) s
        = (-balanceZ E s).toNat := by
      rw [hF]
      exact greedyOuter_from _ _ (by rw [hsupkeys]; exact hndS)
        (le_of_eq htot) (s, (-balanceZ E s).toNat)
        (List.mem_map_of_mem _ hs)
    rw [lsum_cast, sum_flowOf (demandNodes V E) hndD _ s htgt, hfrom,
      hcast_s s hs]
  · intro d hd
    have hto : flowTo (simpleFlowFallback V E) d
        = (balanceZ E d).toNat := by
      rw [hF, greedyOuter_to _ _ htot d,
        amountOf_map (demandNodes V E) hndD _ d hd]
    rw [lsum_cast, sum_flowOf_to (supplyNodes V E) hndS _ d hsrc, hto,
      hcast_d d hd]

/-- C4: on the multigraph handed to the per-SCC Eulerization step, the
edge-duplication phase driven by a degree-saturating flow over recorded
paths (what min-cost flow over shortest-path costs produces on a
strongly connected graph, where the problem is feasible and every
supply-demand pair has a recorded Dijkstra path; the greedy pairing
fallback covers infeasibility) yields a graph in which every node has
equal in-degree and out-degree. -/
theorem make_eulerian_balanced (V : List ℕ) (E : List DiEdge)
    (flow : ℕ → ℕ → ℕ) (paths : ℕ → ℕ → Option (List ℕ))
    (hnd : V.Nodup)
    (hV : ∀ e ∈ E, e.1 ∈ V ∧ e.2 ∈ V)
    (hpaths : ∀ s ∈ supplyNodes V E, ∀ d ∈ demandNodes V E,
      0 < flow s d →
      ∃ p, paths s d = some p ∧ p.head? = some s ∧ p.getLast? = some d
        ∧ ∀ e ∈ pathSteps p, e ∈ E)
    (hflow_s : ∀ s ∈ supplyNodes V E,
      ((demandNodes V E).map (fun d => (flow s d : ℤ))).sum
        = -balanceZ E s)
    (hflow_d : ∀ d ∈ demandNodes V E,
      ((supplyNodes V E).map (fun s => (flow s d : ℤ))).sum
        = balanceZ E d) :
    ∀ v, inDeg (makeEulerianDirected V E flow paths) v
      = outDeg (makeEulerianDirected V E flow paths) v := by
  intro v
  suffices h : balanceZ (makeEulerianDirected V E flow paths) v = 0 by
    simp only [balanceZ] at h
    omega
  have hndS : (supplyNodes V E).Nodup := hnd.filter _
  have hndD : (demandNodes V E).Nodup := hnd.filter _
  rw [makeEulerianDirected, balanceZ_append, balanceZ_flatMap]
  have hinner : ∀ s ∈ supplyNodes V E,
      balanceZ ((demandNodes V E).flatMap
        (fun d => dupEdgesFor E flow paths s d)) v
      = (if v = s then ((demandNodes V E).map
            (fun d => (flow s d : ℤ))).sum else 0)
        - (if v ∈ demandNodes V E then (flow s v : ℤ) else 0) := by
    intro s hs
    rw [balanceZ_flatMap]
    have h1 : ((demandNodes V E).map
        (fun d => balanceZ (dupEdgesFor E flow paths s d) v)).sum
        = ((demandNodes V E).map (fun d => (flow s d : ℤ)
            * ((if v = s then 1 else 0) - (if v = d then 1 else 0)))).sum := by
      apply congrArg
      apply List.map_congr_left
      intro d hd
      exact balanceZ_dupEdgesFor E flow paths s d v (hpaths s hs d hd)
    rw [h1]
    have h2 : ∀ d : ℕ, (flow s d : ℤ)
        * ((if v = s then 1 else 0) - (if v = d then 1 else 0))
        = (if v = s then (flow s d : ℤ) else 0)
          - (if v = d then (flow s d : ℤ) else 0) := by
      intro d
      split_ifs <;> ring
    calc ((demandNodes V E).map (fun d => (flow s d : ℤ)
            * ((if v = s then 1 else 0) - (if v = d then 1 else 0)))).sum
        = ((demandNodes V E).map (fun d =>
            (if v = s then (flow s d : ℤ) else 0)
              - (if v = d then (flow s d : ℤ) else 0))).sum := by
          apply congrArg
          exact List.map_congr_left (fun d _ => h2 d)
      _ = ((demandNodes V E).map (fun d =>
            if v = s then (flow s d : ℤ) else 0)).sum
          - ((demandNodes V E).map (fun d =>
            if v = d then (flow s d : ℤ) else 0)).sum :=
          lsum_sub _ _ _
      _ = (if v = s then ((demandNodes V E).map
            (fun d => (flow s d : ℤ))).sum else 0)
          - (if v ∈ demandNodes V E then (flow s v : ℤ) else 0) := by
          rw [lsum_ite_const, lsum_ite_eq _ hndD v (fun d => (flow s d : ℤ))]
  have houter : ((supplyNodes V E).map (fun s =>
      balanceZ ((demandNodes V E).flatMap
        (fun d => dupEdgesFor E flow paths s d)) v)).sum
      = (if v ∈ supplyNodes V E then -balanceZ E v else 0)
        - (if v ∈ demandNodes V E then balanceZ E v else 0) := by
    calc ((supplyNodes V E).map (fun s =>
          balanceZ ((demandNodes V E).flatMap
            (fun d => dupEdgesFor E flow paths s d)) v)).sum
        = ((supplyNodes V E).map (fun s =>
            (if v = s then ((demandNodes V E).map
              (fun d => (flow s d : ℤ))).sum else 0)
            - (if v ∈ demandNodes V E then (flow s v : ℤ) else 0))).sum := by
          apply congrArg
          exact List.map_congr_left hinner
      _ = ((supplyNodes V E).map (fun s =>
            if v = s then ((demandNodes V E).map
              (fun d => (flow s d : ℤ))).sum else 0)).sum
          - ((supplyNodes V E).map (fun s =>
            if v ∈ demandNodes V E then (flow s v : ℤ) else 0)).sum :=
          lsum_sub _ _ _
      _ = (if v ∈ supplyNodes V E then ((demandNodes V E).map
            (fun d => (flow v d : ℤ))).sum else 0)
          - (if v ∈ demandNodes V E then ((supplyNodes V E).map
            (fun s => (flow s v : ℤ))).sum else 0) := by
          rw [lsum_ite_eq _ hndS v, lsum_ite_const]
      _ = (if v ∈ supplyNodes V E then -balanceZ E v else 0)
          - (if v ∈ demandNodes V E then balanceZ E v else 0) := by
          by_cases hvs : v ∈ supplyNodes V E <;>
            by_cases hvd : v ∈ demandNodes V E <;>
            simp [hvs, hvd, hflow_s v, hflow_d v]
  rw [houter]
  by_cases hvV : v ∈ V
  · by_cases hvs : v ∈ supplyNodes V E
    · have hbal : balanceZ E v < 0 := by
        have := (List.mem_filter.mp hvs).2
        simpa using this
      have hvd : v ∉ demandNodes V E := by
        intro hc
        have := (List.mem_filter.mp hc).2
        simp at this
        omega
      simp [hvs, hvd]
    · by_cases hvd : v ∈ demandNodes V E
      · simp [hvs, hvd]
      · have h1 : ¬ balanceZ E v < 0 := by
          intro hc
          exact hvs (List.mem_filter.mpr ⟨hvV, by simpa using hc⟩)
        have h2 : ¬ 0 < balanceZ E v := by
          intro hc
          exact hvd (List.mem_filter.mpr ⟨hvV, by simpa using hc⟩)
        have : balanceZ E v = 0 := by omega
        simp [hvs, hvd, this]
  · have hout : outDeg E v = 0 := by
      rw [outDeg, List.countP_eq_zero]
      intro e he
      simp only [decide_eq_true_eq]
      intro hc
      exact hvV (hc ▸ (hV e he).1)
    have hin : inDeg E v = 0 := by
      rw [inDeg, List.countP_eq_zero]
      intro e he
      simp only [decide_eq_true_eq]
      intro hc
      exact hvV (hc ▸ (hV e he).2)
    have hvs : v ∉ supplyNodes V E := fun hc =>
      hvV (List.mem_filter.mp hc).1
    have hvd : v ∉ demandNodes V E := fun hc =>
      hvV (List.mem_filter.mp hc).1
    simp [hvs, hvd, balanceZ, hout, hin]

/-- Witness for C4 at the concrete graph: node 1 is balanced in the
augmented multigraph. -/
theorem make_eulerian_balanced_witness :
    inDeg (makeEulerianDirected wV wE wFlow wPaths) 1
      = outDeg (makeEulerianDirected wV wE wFlow wPaths) 1 :=
  make_eulerian_balanced wV wE wFlow wPaths (by decide) (by decide)
    (by
      intro s hs d hd hf
      have hsup : supplyNodes wV wE = [1] := by decide
      have hdem : demandNodes wV wE = [0] := by decide
      rw [hsup] at hs
      rw [hdem] at hd
      simp only [List.mem_singleton] at hs hd
      subst hs
      subst hd
      exact ⟨[1, 2, 0], rfl, rfl, rfl, by decide⟩)
    (by
      intro s hs
      have hsup : supplyNodes wV wE = [1] := by decide
      have hdem : demandNodes wV wE = [0] := by decide
      rw [hsup] at hs
      simp only [List.mem_singleton] at hs
      subst hs
      rw [hdem]
      decide)
    (by
      intro d hd
      have hsup : supplyNodes wV wE = [1] := by decide
      have hdem : demandNodes wV wE = [0] := by decide
      rw [hdem] at hd
      simp only [List.mem_singleton] at hd
      subst hd
      rw [hsup]
      decide)
    1

end ScanNeo
